import Mathlib

/-!
# Verification of the `pod` command-center tooling

Shallow embedding, in Lean 4, of the parts of the `pod` repository that the
frozen claims are about:

* the compile-time macro expander and its dependency graph
  (`src/unnamed/part_004`: `MacroDependencyGraph`, `createEvaluator`,
  `extractValueFromASTNode`, `expandMacros`);
* the deployment orchestrator (`src/src/deploy/deploy.ts`: `interpolate`,
  `SSHStrategy` / `LocalStrategy`, `OperationHandler`, `deploy`).

JavaScript values are modelled by the inductive type `Value` (with an explicit
`vundef` constructor for `undefined`); TypeScript AST expression nodes by the
inductive type `TsNode`, covering the literal / structural fragment that the
evaluator and the value-extraction step pattern-match on.  Effectful strategy
primitives (shell execution, file upload) are modelled as entries of an
explicit effect trace; fallible code returns `Except`.
-/

namespace Pod

/-- Model of a JavaScript runtime value as manipulated by the macro expander
and the deploy orchestrator.  `vundef` is JavaScript `undefined`, `vnull` is
`null`.  Numeric values are modelled as integers (every numeric payload the
verified claims exercise is integral). -/
inductive Value where
  | vstr (s : String)
  | vnum (n : Int)
  | vbool (b : Bool)
  | vnull
  | vundef
  | vobj (fields : List (String × Value))
  | varr (elems : List Value)
  deriving Repr

/-- JavaScript `String(v)` coercion for the modelled values (used by template
literals, by `${key}` interpolation and by computed object keys).  Arrays
stringify by comma-joining their elements with `null`/`undefined` elements
becoming empty strings; plain objects stringify to `"[object Object]"`. -/
def Value.jsToString : Value → String
  | .vstr s => s
  | .vnum n => toString n
  | .vbool b => if b then "true" else "false"
  | .vnull => "null"
  | .vundef => "undefined"
  | .vobj _ => "[object Object]"
  | .varr es => String.intercalate "," (es.attach.map fun e =>
      match e with
      | ⟨.vnull, _⟩ => ""
      | ⟨.vundef, _⟩ => ""
      | ⟨v, _⟩ => Value.jsToString v)

/-- JavaScript truthiness of a modelled value. -/
def Value.truthy : Value → Bool
  | .vstr s => s ≠ ""
  | .vnum n => n ≠ 0
  | .vbool b => b
  | .vnull => false
  | .vundef => false
  | .vobj _ => true
  | .varr _ => true

/-- `obj[key] = v` on a JavaScript object modelled as an ordered association
list: an existing key is updated in place (keeping its position), a new key is
appended. -/
def objSet (fields : List (String × Value)) (key : String) (v : Value) :
    List (String × Value) :=
  if fields.any (fun p => p.1 = key) then
    fields.map fun p => if p.1 = key then (key, v) else p
  else
    fields ++ [(key, v)]

mutual

/-- Shallow embedding of the TypeScript AST expression nodes that the macro
expander's evaluator and value-extraction step pattern-match on
(`src/unnamed/part_004`).  The embedding covers the literal and structural
fragment exercised by the verified claims; `other text` stands for any node
kind outside this fragment and carries the node's source text, because the
evaluator's final fallback returns `arg.getText()`. -/
inductive TsNode where
  | strLit (s : String)
  | noSubstTemplate (s : String)
  | numLit (n : Int)
  | trueLit
  | falseLit
  | nullLit
  | undefinedLit
  | templateExpr (head : String) (spans : List (TsNode × String))
  | objectLit (props : List ObjProp)
  | arrayLit (elems : List ArrElem)
  | ident (name : String)
  | paren (e : TsNode)
  | conditional (c t f : TsNode)
  | callExpr (calleeName : String) (args : List TsNode) (text : String)
  | other (text : String)

/-- Property-name forms of a TypeScript object-literal member
(`ts.PropertyName`): identifier, string literal, numeric literal (whose `text`
is used verbatim as the key), or a computed name. -/
inductive PropName where
  | pident (s : String)
  | pstr (s : String)
  | pnum (s : String)
  | pcomputed (e : TsNode)

/-- An object-literal member: `key: value` assignment, shorthand `{ name }`,
or spread `{ ...expr }`. -/
inductive ObjProp where
  | assign (name : PropName) (init : TsNode)
  | shorthand (name : String)
  | spread (e : TsNode)

/-- An array-literal element: a plain expression or a spread element. -/
inductive ArrElem where
  | elem (e : TsNode)
  | spreadEl (e : TsNode)

end

/-- `Object.assign(obj, source)` for an object source: copy the source's
entries onto `obj` in order. -/
def objAssign (acc : List (String × Value)) (fs : List (String × Value)) :
    List (String × Value) :=
  fs.foldl (fun a p => objSet a p.1 p.2) acc

/-- `Object.assign(obj, source)` for an array source: copy the array's index
properties (`"0"`, `"1"`, …) onto `obj`. -/
def objAssignArr (acc : List (String × Value)) (es : List Value) :
    List (String × Value) :=
  (es.enum).foldl (fun a p => objSet a (toString p.1) p.2) acc

mutual

/-- Embedding of `extractValueFromASTNode` (`src/unnamed/part_004`,
lines 526–564): flattens string / numeric / boolean / null / undefined
literal nodes to their values and reconstructs object-literal nodes as plain
objects.  Every other node kind — including, notably, array literals, which
the function has no case for — falls through to the implicit
`return undefined`, modelled by `Value.vundef`. -/
def extractValueFromASTNode : TsNode → Value
  | .strLit s => .vstr s
  | .noSubstTemplate s => .vstr s
  | .numLit n => .vnum n
  | .trueLit => .vbool true
  | .falseLit => .vbool false
  | .nullLit => .vnull
  | .undefinedLit => .vundef
  | .objectLit props => .vobj (extractProps props [])
  | _ => (.vundef)

/-- The property loop of `extractValueFromASTNode`'s object-literal case:
property assignments compute a key (skipped if the computed key is
`undefined`) and store the extraction of the initializer; shorthand
properties store the property's own name as a string; spreads
`Object.assign` the extracted value when it is a non-null object. -/
def extractProps : List ObjProp → List (String × Value) → List (String × Value)
  | [], acc => acc
  | .assign name init :: ps, acc =>
      let key? : Option String :=
        match name with
        | .pident s => some s
        | .pstr s => some s
        | .pnum s => some s
        | .pcomputed e =>
            match extractValueFromASTNode e with
            | .vundef => none
            | v => some v.jsToString
      match key? with
      | some k => extractProps ps (objSet acc k (extractValueFromASTNode init))
      | none => extractProps ps acc
  | .shorthand n :: ps, acc => extractProps ps (objSet acc n (.vstr n))
  | .spread e :: ps, acc =>
      match extractValueFromASTNode e with
      | .vobj fs => extractProps ps (objAssign acc fs)
      | .varr es => extractProps ps (objAssignArr acc es)
      | _ => extractProps ps acc

end

/-- If `key` does not occur in `fields`, `objSet` appends the new entry. -/
theorem objSet_of_not_mem (fields : List (String × Value)) (key : String)
    (v : Value) (h : fields.any (fun p => p.1 = key) = false) :
    objSet fields key v = fields ++ [(key, v)] := by
  simp only [objSet, h]
  simp

/-- `extractProps` over a list of identifier-keyed property assignments with
pairwise-distinct, fresh names appends the corresponding extracted entries. -/
theorem extractProps_assigns (l : List (String × TsNode))
    (acc : List (String × Value))
    (hnodup : (l.map Prod.fst).Nodup)
    (hfresh : ∀ p ∈ l, acc.any (fun q => q.1 = p.1) = false) :
    extractProps (l.map fun p => .assign (.pident p.1) p.2) acc
      = acc ++ l.map fun p => (p.1, extractValueFromASTNode p.2) := by
  induction l generalizing acc with
  | nil => simp [extractProps]
  | cons hd tl ih =>
      simp only [List.map_cons, extractProps]
      rw [objSet_of_not_mem _ _ _ (hfresh hd (by simp))]
      have hfresh' : ∀ p ∈ tl,
          ((acc ++ [(hd.1, extractValueFromASTNode hd.2)]).any
            fun q => q.1 = p.1) = false := by
        intro p hp
        have hne : p.1 ≠ hd.1 := by
          simp only [List.map_cons, List.nodup_cons] at hnodup
          intro he
          exact hnodup.1 (he ▸ (List.mem_map_of_mem Prod.fst hp))
        have hq := hfresh p (List.mem_cons_of_mem _ hp)
        simp only [List.any_append, hq, List.any_cons, List.any_nil,
          Bool.false_or, Bool.or_false, decide_eq_false_iff_not]
        exact fun he => hne he.symm
      rw [ih _ (by simpa using hnodup.of_cons) hfresh']
      simp

/-- C2, counterexample: the claim states that array-literal AST nodes returned
by a macro are reconstructed as plain arrays by the value-extraction step, but
`extractValueFromASTNode` has no array-literal case at all — extracting the
array literal `[1]` falls through to the implicit `return undefined` instead
of producing the plain array `[1]`. -/
theorem C2_counterexample :
    extractValueFromASTNode (.arrayLit [.elem (.numLit 1)]) = .vundef ∧
    extractValueFromASTNode (.arrayLit [.elem (.numLit 1)]) ≠ .varr [.vnum 1] := by
  refine ⟨?_, ?_⟩
  · simp [extractValueFromASTNode]
  · simp [extractValueFromASTNode]

/-- C2, amended: the value-extraction step flattens string / numeric /
boolean / null / undefined literal nodes to their plain values and
reconstructs object-literal nodes as plain objects (shown here for
identifier-keyed property assignments with pairwise-distinct names);
array-literal nodes are NOT reconstructed — they, like every other node kind
outside the handled ones, extract to `undefined`. -/
theorem C2_amended :
    (∀ l : List (String × TsNode), (l.map Prod.fst).Nodup →
        extractValueFromASTNode
            (.objectLit (l.map fun p => .assign (.pident p.1) p.2))
          = .vobj (l.map fun p => (p.1, extractValueFromASTNode p.2))) ∧
    (∀ s, extractValueFromASTNode (.strLit s) = .vstr s) ∧
    (∀ s, extractValueFromASTNode (.noSubstTemplate s) = .vstr s) ∧
    (∀ n, extractValueFromASTNode (.numLit n) = .vnum n) ∧
    extractValueFromASTNode .trueLit = .vbool true ∧
    extractValueFromASTNode .falseLit = .vbool false ∧
    extractValueFromASTNode .nullLit = .vnull ∧
    extractValueFromASTNode .undefinedLit = .vundef ∧
    (∀ es, extractValueFromASTNode (.arrayLit es) = .vundef) ∧
    (∀ t, extractValueFromASTNode (.other t) = .vundef) := by
  refine ⟨?_, ?_, ?_, ?_, ?_, ?_, ?_, ?_, ?_, ?_⟩ <;>
    first
      | (intro l h
         simp only [extractValueFromASTNode]
         rw [extractProps_assigns l [] h (by intro p _; rfl)]
         simp)
      | (intros; simp [extractValueFromASTNode])

/-- Witness for C2's amended theorem at a concrete object literal. -/
theorem C2_amended_witness :
    extractValueFromASTNode (.objectLit [.assign (.pident "a") (.numLit 2)])
      = .vobj [("a", .vnum 2)] := by
  have h := C2_amended.1 [("a", TsNode.numLit 2)] (by simp)
  simpa [extractValueFromASTNode] using h

/-! ## The expander's fast path (`expandMacros`, claim C6) -/

/-- JavaScript `String.prototype.includes`: substring containment. -/
def jsIncludes (s pat : String) : Bool :=
  decide (pat.toList <:+: s.toList)

/-- Embedding of `expandMacros` (`src/unnamed/part_004`, lines 566–573) at the
granularity claim C6 needs: the observable fast path.  The function first
tests `!source.includes("$(") && !source.includes("$\x60")` and returns the
source verbatim when the test passes; everything after that guard (parsing,
graph construction, execution, rewriting) is the slow path, taken here as an
arbitrary function `slow` of the same three inputs. -/
def expandMacrosModel (slow : String → String → String → String)
    (source filePath projectRoot : String) : String :=
  if !(jsIncludes source "$(") && !(jsIncludes source "$`") then
    source
  else
    slow source filePath projectRoot

/-- C6: fast-path fidelity.  For every source string containing neither the
substring `$(` nor the substring `` $` ``, and for every file path, project
root and slow path, `expandMacros` returns the source unchanged. -/
theorem C6_fast_path (slow : String → String → String → String)
    (source filePath projectRoot : String)
    (h1 : jsIncludes source "$(" = false)
    (h2 : jsIncludes source "$`" = false) :
    expandMacrosModel slow source filePath projectRoot = source := by
  simp [expandMacrosModel, h1, h2]

/-- Witness for C6 at a concrete macro-free source. -/
theorem C6_fast_path_witness :
    expandMacrosModel (fun _ _ _ => "SLOW") "const x = 1;" "src/a.ts" "/proj"
      = "const x = 1;" :=
  C6_fast_path (fun _ _ _ => "SLOW") "const x = 1;" "src/a.ts" "/proj"
    (by decide) (by decide)

/-! ## `${key}` interpolation (`deploy.ts` `interpolate`, claim C9) -/

/-- One scanning step of the global regex `/\$\x7b([^\x7d]+)\x7d/g` used by
`interpolate`: at `"$\x7b"` the engine greedily takes a nonempty run of
non-`\x7d` characters and requires a closing brace; on a match the token is
replaced (the context value stringified when the key is defined, the matched
text kept verbatim otherwise) and scanning resumes after the match; on a
failed attempt the engine advances one character. -/
theorem length_dropWhile_le (p : Char → Bool) (l : List Char) :
    (l.dropWhile p).length ≤ l.length := by
  induction l with
  | nil => simp
  | cons a l ih =>
      by_cases ha : p a = true
      · simpa [List.dropWhile_cons, ha] using Nat.le_succ_of_le ih
      · simp [List.dropWhile_cons, ha]

def interpAux (ctx : String → Option Value) : List Char → List Char
  | [] => []
  | c :: rest =>
      if c = '$' then
        match rest with
        | '{' :: rest2 =>
            let keyRun := rest2.takeWhile (fun x => x ≠ '}')
            let afterKey := rest2.dropWhile (fun x => x ≠ '}')
            if keyRun ≠ [] ∧ afterKey ≠ [] then
              (match ctx (String.mk keyRun) with
                | some v => (Value.jsToString v).toList
                | none => '$' :: '{' :: (keyRun ++ ['}']))
                ++ interpAux ctx afterKey.tail
            else
              c :: interpAux ctx ('{' :: rest2)
        | other => c :: interpAux ctx other
      else
        c :: interpAux ctx rest
  termination_by l => l.length
  decreasing_by
    · have h1 := length_dropWhile_le (fun x => x ≠ '}') rest2
      have h2 := (List.dropWhile (fun x => x ≠ '}') rest2).length_tail
      simp only [List.length_cons]
      omega
    · simp
    · simp
    · simp

/-- Embedding of `interpolate` (`src/src/deploy/deploy.ts`, lines 69–77).
The `str` argument is `string | undefined` (`none` for `undefined`); a falsy
argument — `undefined` or the empty string — returns `""` at once, and
otherwise every `${key}` token is globally replaced by `String(context[key])`
when `context[key] !== undefined` and kept verbatim otherwise.  The context
maps keys to `none` when the looked-up property is absent or `undefined`. -/
def interpolate (str : Option String) (ctx : String → Option Value) : String :=
  match str with
  | none => ""
  | some s => if s = "" then "" else String.mk (interpAux ctx s.toList)

theorem interpAux_cons_ne (ctx : String → Option Value) (c : Char)
    (l : List Char) (h : c ≠ '$') :
    interpAux ctx (c :: l) = c :: interpAux ctx l := by
  rw [interpAux.eq_def]
  simp [h]

theorem interpAux_append_inert (ctx : String → Option Value)
    (l₁ l₂ : List Char) (h : ∀ c ∈ l₁, c ≠ '$') :
    interpAux ctx (l₁ ++ l₂) = l₁ ++ interpAux ctx l₂ := by
  induction l₁ with
  | nil => simp
  | cons a l ih =>
      rw [List.cons_append, interpAux_cons_ne ctx a _ (h a (by simp)),
        ih (fun c hc => h c (List.mem_cons_of_mem _ hc))]
      simp

theorem takeWhile_append_all (p : Char → Bool) (l₁ l₂ : List Char)
    (h : ∀ c ∈ l₁, p c = true) :
    (l₁ ++ l₂).takeWhile p = l₁ ++ l₂.takeWhile p := by
  induction l₁ with
  | nil => simp
  | cons a l ih =>
      simp [List.takeWhile_cons, h a (by simp),
        ih (fun c hc => h c (List.mem_cons_of_mem _ hc))]

theorem dropWhile_append_all (p : Char → Bool) (l₁ l₂ : List Char)
    (h : ∀ c ∈ l₁, p c = true) :
    (l₁ ++ l₂).dropWhile p = l₂.dropWhile p := by
  induction l₁ with
  | nil => simp
  | cons a l ih =>
      simp only [List.cons_append, List.dropWhile_cons, h a (by simp)]
      exact ih (fun c hc => h c (List.mem_cons_of_mem _ hc))

/-- Scanning a well-formed `${key}` token: the replacement for the token is
emitted and scanning resumes right after the closing brace. -/
theorem interpAux_token (ctx : String → Option Value) (k rest : List Char)
    (hk : k ≠ []) (hk2 : ∀ c ∈ k, c ≠ '}') :
    interpAux ctx ('$' :: '{' :: (k ++ '}' :: rest))
      = (match ctx (String.mk k) with
          | some v => (Value.jsToString v).toList
          | none => '$' :: '{' :: (k ++ ['}'])) ++ interpAux ctx rest := by
  have hp : ∀ c ∈ k, (fun x => decide (x ≠ '}')) c = true := by
    intro c hc
    simpa using hk2 c hc
  have htake : (k ++ '}' :: rest).takeWhile (fun x => x ≠ '}') = k := by
    rw [takeWhile_append_all _ _ _ hp]
    simp [List.takeWhile_cons]
  have hdrop : (k ++ '}' :: rest).dropWhile (fun x => x ≠ '}') = '}' :: rest := by
    rw [dropWhile_append_all _ _ _ hp]
    simp [List.dropWhile_cons]
  simp only [interpAux, if_pos rfl, htake, hdrop]
  rw [if_pos (show k ≠ [] ∧ ('}' :: rest : List Char) ≠ [] from ⟨hk, by simp⟩),
    List.tail_cons, if_true]

/-- C9: `${key}` tokens are substituted exactly when the context defines the
key.  First conjunct: a (JavaScript-falsy) `undefined` or empty input string
interpolates to the empty string.  Second: a token whose key is defined in
the context is replaced by the stringified context value.  Third: a token
whose key is absent from the context is left verbatim in the output.  The
token is exhibited as `pre ++ "$\x7b" ++ k ++ "\x7d" ++ rest` with no `$` in `pre`
(so the scan reaches the token unchanged), `k` nonempty and brace-free (the
regex requires one or more non-brace characters). -/
theorem C9_interpolate :
    (∀ ctx, interpolate none ctx = "" ∧ interpolate (some "") ctx = "") ∧
    (∀ ctx (pre k rest : String) (v : Value), (∀ c ∈ pre.data, c ≠ '$') →
        k ≠ "" → (∀ c ∈ k.data, c ≠ '}') → ctx k = some v →
        interpolate (some (pre ++ "$\x7b" ++ k ++ "\x7d" ++ rest)) ctx
          = pre ++ Value.jsToString v ++ String.mk (interpAux ctx rest.data)) ∧
    (∀ ctx (pre k rest : String), (∀ c ∈ pre.data, c ≠ '$') →
        k ≠ "" → (∀ c ∈ k.data, c ≠ '}') → ctx k = none →
        interpolate (some (pre ++ "$\x7b" ++ k ++ "\x7d" ++ rest)) ctx
          = pre ++ "$\x7b" ++ k ++ "\x7d" ++ String.mk (interpAux ctx rest.data)) := by
  have hdata : ∀ (pre k rest : String),
      (pre ++ "$\x7b" ++ k ++ "\x7d" ++ rest).data
        = pre.data ++ ('$' :: '{' :: (k.data ++ '}' :: rest.data)) := by
    intro pre k rest
    simp
  have hne : ∀ (pre k rest : String), (pre ++ "$\x7b" ++ k ++ "\x7d" ++ rest) ≠ "" := by
    intro pre k rest h
    have := congrArg String.data h
    rw [hdata] at this
    simp at this
  have hkd : ∀ k : String, k ≠ "" → k.data ≠ [] := by
    intro k h hd
    exact h (String.ext hd)
  refine ⟨fun ctx => ⟨rfl, rfl⟩, ?_, ?_⟩
  · intro ctx pre k rest v hpre hk hk2 hctx
    apply String.ext
    show (interpolate (some (pre ++ "$\x7b" ++ k ++ "\x7d" ++ rest)) ctx).data = _
    rw [interpolate, if_neg (hne pre k rest)]
    show interpAux ctx (pre ++ "$\x7b" ++ k ++ "\x7d" ++ rest).data = _
    rw [hdata, interpAux_append_inert ctx _ _ hpre,
      interpAux_token ctx _ _ (hkd k hk) hk2]
    have : String.mk k.data = k := rfl
    rw [this, hctx]
    simp
  · intro ctx pre k rest hpre hk hk2 hctx
    apply String.ext
    show (interpolate (some (pre ++ "$\x7b" ++ k ++ "\x7d" ++ rest)) ctx).data = _
    rw [interpolate, if_neg (hne pre k rest)]
    show interpAux ctx (pre ++ "$\x7b" ++ k ++ "\x7d" ++ rest).data = _
    rw [hdata, interpAux_append_inert ctx _ _ hpre,
      interpAux_token ctx _ _ (hkd k hk) hk2]
    have : String.mk k.data = k := rfl
    rw [this, hctx]
    simp

/-- Witness for C9 at concrete tokens: a defined key is substituted, an
absent key stays verbatim, and `undefined` interpolates to `""`. -/
theorem C9_interpolate_witness :
    interpolate (some "port: ${port}") (fun key =>
        if key = "port" then some (.vnum 8080) else none) = "port: 8080" ∧
    interpolate (some "port: ${host}") (fun key =>
        if key = "port" then some (.vnum 8080) else none) = "port: ${host}" ∧
    interpolate none (fun key =>
        if key = "port" then some (.vnum 8080) else none) = "" := by
  refine ⟨?_, ?_, ?_⟩
  · have h := C9_interpolate.2.1 (fun key =>
        if key = "port" then some (.vnum 8080) else none)
        "port: " "port" "" (.vnum 8080) (by decide) (by decide) (by decide) rfl
    simpa [interpAux, Value.jsToString] using h
  · have h := C9_interpolate.2.2 (fun key =>
        if key = "port" then some (.vnum 8080) else none)
        "port: " "host" "" (by decide) (by decide) (by decide) rfl
    simpa [interpAux] using h
  · exact (C9_interpolate.1 (fun key =>
        if key = "port" then some (.vnum 8080) else none)).1

/-! ## Strategy command execution (`SSHStrategy.runCommand`,
`LocalStrategy.runCommand`, claim C10) -/

/-- Characters removed by JavaScript `String.prototype.trim` (the ASCII
whitespace fragment). -/
def jsWhitespace (c : Char) : Bool :=
  c = ' ' || c = '\t' || c = '\n' || c = '\r' || c = '\x0b' || c = '\x0c'

/-- JavaScript `String.prototype.trim`: strip whitespace from both ends. -/
def jsTrim (s : String) : String :=
  String.mk (((s.data.dropWhile jsWhitespace).reverse.dropWhile
    jsWhitespace).reverse)

/-- `String.prototype.startsWith` (equivalently, Lean's `String.startsWith`,
restated over the character list so that it evaluates by `rfl`). -/
def jsStartsWith (s pat : String) : Bool :=
  List.isPrefixOf pat.data s.data

/-- Split `l` at the first occurrence of `pat`, returning the characters
before it and the characters after it. -/
def firstOccurrenceSplit (pat : List Char) :
    List Char → Option (List Char × List Char)
  | [] => if pat.isPrefixOf [] then some ([], []) else none
  | c :: rest =>
      if pat.isPrefixOf (c :: rest) then
        some ([], (c :: rest).drop pat.length)
      else
        (firstOccurrenceSplit pat rest).map fun p => (c :: p.1, p.2)

/-- JavaScript `String.prototype.replace` with a plain-string pattern:
replace the first occurrence only (the string is returned unchanged when the
pattern does not occur). -/
def replaceFirst (s pat rep : String) : String :=
  match firstOccurrenceSplit pat.data s.data with
  | none => s
  | some (before, after) => String.mk (before ++ rep.data ++ after)

/-- One step of POSIX path normalization over already-split components,
building the component stack in reverse: empty and `.` components vanish,
`..` pops a non-`..` top (disappearing at the root of an absolute path), and
ordinary components push. -/
def normStepRev (abs : Bool) (acc : List String) (comp : String) :
    List String :=
  if comp = "" || comp = "." then acc
  else if comp = ".." then
    match acc with
    | [] => if abs then [] else [".."]
    | top :: rest => if top = ".." then comp :: acc else rest
  else comp :: acc

/-- Split a character list on `/`, yielding the path components
(`String.splitOn "/"`, restated over the character list so that it evaluates
by `rfl`). -/
def splitOnSlash : List Char → List (List Char)
  | [] => [[]]
  | c :: rest =>
      match splitOnSlash rest with
      | [] => if c = '/' then [[], []] else [[c]]
      | h :: t => if c = '/' then [] :: h :: t else (c :: h) :: t

/-- Embedding of Node's `path.posix.resolve(from, to)` (also `path.resolve`
on a POSIX host): the rightmost absolute path wins, a relative result is
resolved against the process working directory, and the joined path is
normalized. -/
def posixResolve (processCwd f t : String) : String :=
  let joined :=
    if jsStartsWith t "/" then t
    else if jsStartsWith f "/" then f ++ "/" ++ t
    else processCwd ++ "/" ++ f ++ "/" ++ t
  let abs := jsStartsWith joined "/"
  let comps := (splitOnSlash joined.data).map String.mk
  let parts := (comps.foldl (normStepRev abs) []).reverse
  let body := String.intercalate "/" parts
  if abs then (if body = "" then "/" else "/" ++ body)
  else (if body = "" then "." else body)

/-- Result record of a strategy command (`{ stdout, stderr, code }`; `code`
is `number | null`). -/
structure CmdResult where
  stdout : String
  stderr : String
  code : Option Int
  deriving DecidableEq, Repr

/-- A shell actually invoked by a strategy: the command text and the tracked
working directory it would run in. -/
inductive ShellEffect where
  | exec (cmd : String) (cwd : String)
  deriving DecidableEq, Repr

/-- Embedding of `SSHStrategy.runCommand` (`deploy.ts`, lines 326–355).  The
strategy's only mutable state is `currentDir`, passed and returned
explicitly; `execOracle` stands for `ssh.execCommand` on the remote host.  A
trimmed command starting with `"cd "` is handled at the strategy level: the
remainder of the string (after the first `"cd "` occurrence is removed and
the result trimmed) is resolved with `path.posix.resolve` against the
tracked directory, no shell runs, and `{stdout: "", stderr: "", code: 0}` is
returned.  Otherwise the command runs remotely in `currentDir` and a
non-zero, non-null exit code raises `Execution failed`.  (Console logging is
not modelled.) -/
def sshRunCommand (execOracle : String → String → CmdResult)
    (processCwd currentDir cmd : String) :
    List ShellEffect × Except String (CmdResult × String) :=
  let trimmed := jsTrim cmd
  if jsStartsWith trimmed "cd " then
    let newPath := jsTrim (replaceFirst trimmed "cd " "")
    ([], .ok (⟨"", "", some 0⟩, posixResolve processCwd currentDir newPath))
  else
    let r := execOracle trimmed currentDir
    match r.code with
    | some c =>
        if c ≠ 0 then
          ([.exec trimmed currentDir], .error ("Execution failed: " ++ trimmed))
        else ([.exec trimmed currentDir], .ok (r, currentDir))
    | none => ([.exec trimmed currentDir], .ok (r, currentDir))

/-- Embedding of `LocalStrategy.runCommand` (`deploy.ts`, lines 445–478),
with the same `cd` fast path (using `path.resolve`, identical to the POSIX
resolve on the host platform).  `execOracle` stands for `execAsync`, which
either throws (`.error`) or yields `(stdout, stderr)`; a successful run
returns exit code `0`. -/
def localRunCommand (execOracle : String → String → Except String (String × String))
    (processCwd currentDir cmd : String) :
    List ShellEffect × Except String (CmdResult × String) :=
  let trimmed := jsTrim cmd
  if jsStartsWith trimmed "cd " then
    let newPath := jsTrim (replaceFirst trimmed "cd " "")
    ([], .ok (⟨"", "", some 0⟩, posixResolve processCwd currentDir newPath))
  else
    match execOracle trimmed currentDir with
    | .ok (out, err) => ([.exec trimmed currentDir], .ok (⟨out, err, some 0⟩, currentDir))
    | .error e =>
        ([.exec trimmed currentDir],
          .error ("Execution failed: " ++ trimmed ++ "\nSTDERR: " ++ e))

/-- C10: for both strategies, a command whose trimmed text starts with
`"cd "` — compound commands such as `cd x && y` included — never reaches a
shell: the effect trace is empty, the entire remainder of the string is
resolved against the tracked working directory to become the new tracked
directory, and the call returns `stdout ""`, `stderr ""`, exit code `0`.
`currentDir` is the strategies' only mutable field, so nothing else
changes. -/
theorem C10_cd_handling (sshOracle : String → String → CmdResult)
    (localOracle : String → String → Except String (String × String))
    (processCwd currentDir cmd : String)
    (h : jsStartsWith (jsTrim cmd) "cd " = true) :
    sshRunCommand sshOracle processCwd currentDir cmd
      = ([], .ok (⟨"", "", some 0⟩,
          posixResolve processCwd currentDir
            (jsTrim (replaceFirst (jsTrim cmd) "cd " "")))) ∧
    localRunCommand localOracle processCwd currentDir cmd
      = ([], .ok (⟨"", "", some 0⟩,
          posixResolve processCwd currentDir
            (jsTrim (replaceFirst (jsTrim cmd) "cd " "")))) := by
  constructor
  · simp [sshRunCommand, h]
  · simp [localRunCommand, h]

/-- Witness for C10 at the compound command `cd app && ls`: the whole
remainder `app && ls` is treated as one path component chain and no shell
runs. -/
theorem C10_cd_handling_witness :
    sshRunCommand (fun _ _ => ⟨"", "", some 0⟩) "/cwd" "/srv" " cd app && ls "
      = ([], .ok (⟨"", "", some 0⟩, "/srv/app && ls")) ∧
    localRunCommand (fun _ _ => .ok ("", "")) "/cwd" "/srv" " cd app && ls "
      = ([], .ok (⟨"", "", some 0⟩, "/srv/app && ls")) := by
  have h := C10_cd_handling (fun _ _ => ⟨"", "", some 0⟩)
    (fun _ _ => .ok ("", "")) "/cwd" "/srv" " cd app && ls " (by decide)
  constructor
  · rw [h.1]
    rfl
  · rw [h.2]
    rfl

/-! ## The Macro Graph (`MacroDependencyGraph`, claims C1 and C5) -/

/-- Embedding of the `MacroNode` record (`src/unnamed/part_004`, lines
19–29).  `dependencies` is a JavaScript `Set` kept as its insertion-ordered
element list; `value` starts out as `undefined` (`Value.vundef`); `astResult`
is optional. -/
structure MacroNode where
  key : String
  variableName : String
  callNode : TsNode
  filePath : String
  dependencies : List String
  value : Value
  astResult : Option TsNode
  computed : Bool

/-- Embedding of `MacroDependencyGraph` (`src/unnamed/part_004`, lines
31–141): a `Map` from site key to `MacroNode`, kept as its insertion-ordered
entry list, plus the project root used to normalize keys. -/
structure MacroDependencyGraph where
  projectRoot : String
  nodes : List (String × MacroNode)

/-- `Map.get`: the node stored under `key`, if any. -/
def MacroDependencyGraph.getNode (g : MacroDependencyGraph) (key : String) :
    Option MacroNode :=
  (g.nodes.find? fun p => p.1 = key).map Prod.snd

/-- `Map.has`: whether a site with this key is stored. -/
def MacroDependencyGraph.hasKey (g : MacroDependencyGraph) (key : String) :
    Bool :=
  g.nodes.any fun p => p.1 = key

/-- Embedding of `addNode`: re-adding an existing key is a no-op, otherwise a
fresh site (empty dependency set, undefined value, not computed) is
appended. -/
def MacroDependencyGraph.addNode (g : MacroDependencyGraph)
    (key variableName : String) (callNode : TsNode) (filePath : String) :
    MacroDependencyGraph :=
  if g.hasKey key then g
  else
    { g with nodes := g.nodes ++
        [(key, ⟨key, variableName, callNode, filePath, [], .vundef, none,
          false⟩)] }

/-- The in-place mutation pattern `const node = this.nodes.get(k); if (node)
{ ...mutate node... }`: rewrite the entry stored under `tgt` (if any) with
`f`, leaving every other entry alone. -/
def updateEntry (nodes : List (String × MacroNode)) (tgt : String)
    (f : MacroNode → MacroNode) : List (String × MacroNode) :=
  nodes.map fun p => if p.1 = tgt then (p.1, f p.2) else p

/-- Embedding of `addDependency`: if a site is stored under `fromKey`, add
`toKey` to its dependency set (a `Set.add`, so an already-present key is not
duplicated); otherwise do nothing.  Note the code does not require `toKey`
to exist in the graph. -/
def MacroDependencyGraph.addDependency (g : MacroDependencyGraph)
    (fromKey toKey : String) : MacroDependencyGraph :=
  { g with nodes := updateEntry g.nodes fromKey fun n =>
      { n with
          dependencies :=
            if toKey ∈ n.dependencies then n.dependencies
            else n.dependencies ++ [toKey] } }

/-- Embedding of `setValue`: store the computed value and AST result and mark
the site computed (a no-op when the key is absent). -/
def MacroDependencyGraph.setValue (g : MacroDependencyGraph) (key : String)
    (value : Value) (astResult : TsNode) : MacroDependencyGraph :=
  { g with nodes := updateEntry g.nodes key fun n =>
      { n with
          value := value,
          computed := true,
          astResult := some astResult } }

/-- Embedding of `getValue`: `this.nodes.get(key)?.value`, which is
`undefined` when the key is absent. -/
def MacroDependencyGraph.getValue (g : MacroDependencyGraph) (key : String) :
    Value :=
  ((g.getNode key).map (fun n => n.value)).getD (.vundef)

/-- Embedding of `isComputed`. -/
def MacroDependencyGraph.isComputed (g : MacroDependencyGraph) (key : String) :
    Bool :=
  ((g.getNode key).map (fun n => n.computed)).getD false

theorem find?_updateEntry (nodes : List (String × MacroNode)) (tgt : String)
    (f : MacroNode → MacroNode) (key : String) :
    ((updateEntry nodes tgt f).find? fun p => p.1 = key)
      = (nodes.find? fun p => p.1 = key).map
          fun p => (p.1, if key = tgt then f p.2 else p.2) := by
  induction nodes with
  | nil => simp [updateEntry]
  | cons a l ih =>
      have hhd : (if a.1 = tgt then ((a.1, f a.2) : String × MacroNode)
          else a).1 = a.1 := by
        by_cases h : a.1 = tgt <;> simp [h]
      by_cases ha : a.1 = key
      · rw [updateEntry, List.map_cons,
          List.find?_cons_of_pos _ (by simp only [hhd]; simp [ha]),
          List.find?_cons_of_pos _ (by simp [ha])]
        subst ha
        by_cases h : a.1 = tgt <;> simp [h]
      · rw [updateEntry, List.map_cons,
          List.find?_cons_of_neg _ (by simp only [hhd]; simp [ha]),
          List.find?_cons_of_neg _ (by simp [ha])]
        exact ih

theorem getNode_updateEntry (g : MacroDependencyGraph) (tgt : String)
    (f : MacroNode → MacroNode) (key : String) :
    MacroDependencyGraph.getNode
        { g with nodes := updateEntry g.nodes tgt f } key
      = (g.getNode key).map fun n => if key = tgt then f n else n := by
  unfold MacroDependencyGraph.getNode
  rw [find?_updateEntry]
  cases nodes_find : g.nodes.find? fun p => p.1 = key <;> simp

theorem hasKey_updateEntry (g : MacroDependencyGraph) (tgt : String)
    (f : MacroNode → MacroNode) (key : String) :
    MacroDependencyGraph.hasKey
        { g with nodes := updateEntry g.nodes tgt f } key
      = g.hasKey key := by
  unfold MacroDependencyGraph.hasKey updateEntry
  induction g.nodes with
  | nil => simp
  | cons a l ih =>
      have hhd : ((fun p : String × MacroNode =>
          if p.1 = tgt then (p.1, f p.2) else p) a).1 = a.1 := by
        by_cases h : a.1 = tgt <;> simp [h]
      simp only [List.map_cons, List.any_cons, hhd, ih]

theorem hasKey_of_getValue_ne (g : MacroDependencyGraph) (key : String)
    (h : g.getValue key ≠ .vundef) : g.hasKey key = true := by
  unfold MacroDependencyGraph.getValue MacroDependencyGraph.getNode at h
  unfold MacroDependencyGraph.hasKey
  cases hf : g.nodes.find? fun p => p.1 = key with
  | none => rw [hf] at h; simp at h
  | some p =>
      have hp := List.find?_some hf
      have hmem := List.mem_of_find?_eq_some hf
      simp only [List.any_eq_true]
      exact ⟨p, hmem, hp⟩

/-- The graph mutations performed during an expansion (`expandMacros`):
`addSite` from the discovery walk, `addDep` from the dependency-probing loop,
`setResult` from the execution loop. -/
inductive GraphOp where
  | addSite (key variableName : String) (callNode : TsNode) (filePath : String)
  | addDep (fromKey toKey : String)
  | setResult (key : String) (value : Value) (astResult : TsNode)

/-- Apply a graph operation. -/
def applyOp (g : MacroDependencyGraph) : GraphOp → MacroDependencyGraph
  | .addSite k v n f => g.addNode k v n f
  | .addDep a b => g.addDependency a b
  | .setResult k v a => g.setValue k v a

/-- The discipline `expandMacros` obeys when mutating the graph:
`addDependency(fromKey, toKey)` is only ever issued for a `toKey` whose
stored value was observed to be non-`undefined`.  (The evaluator's
`resolveIdentifier` pushes a tracked dependency key and immediately requires
`graph.getValue(depKey) !== undefined`, throwing otherwise; `expandMacros`
adds the tracked dependencies to the graph only when the whole argument
evaluation ran to completion, and nothing mutates the graph between that
check and the `addDependency` calls.)  `addSite` and `setResult` are
unrestricted. -/
def ExpansionStep (g : MacroDependencyGraph) : GraphOp → Prop
  | .addDep _ toKey => g.getValue toKey ≠ .vundef
  | _ => True

/-- A sequence of graph operations each permitted by the expansion
discipline, relating the starting graph to the final graph. -/
inductive ExpansionTrace :
    MacroDependencyGraph → List GraphOp → MacroDependencyGraph → Prop where
  | nil (g : MacroDependencyGraph) : ExpansionTrace g [] g
  | cons {g g' : MacroDependencyGraph} (op : GraphOp) (rest : List GraphOp)
      (hstep : ExpansionStep g op)
      (htail : ExpansionTrace (applyOp g op) rest g') :
      ExpansionTrace g (op :: rest) g'

/-- The dependency-closure invariant of §3 of the spec: every key in any
stored site's dependency set is itself a stored site. -/
def DepClosed (g : MacroDependencyGraph) : Prop :=
  ∀ k n, g.getNode k = some n → ∀ d ∈ n.dependencies, g.hasKey d = true

theorem hasKey_addNode_mono (g : MacroDependencyGraph)
    (k v : String) (n : TsNode) (f key : String)
    (h : g.hasKey key = true) : (g.addNode k v n f).hasKey key = true := by
  unfold MacroDependencyGraph.addNode
  by_cases hk : g.hasKey k = true
  · rw [if_pos hk]
    exact h
  · rw [if_neg hk]
    unfold MacroDependencyGraph.hasKey at h ⊢
    simp only [List.any_append, h, Bool.true_or]

/-- `ExpansionStep` preserves the dependency-closure invariant. -/
theorem depClosed_applyOp (g : MacroDependencyGraph) (op : GraphOp)
    (hinv : DepClosed g) (hstep : ExpansionStep g op) :
    DepClosed (applyOp g op) := by
  cases op with
  | addSite k v n f =>
      intro q m hget d hd
      simp only [applyOp] at hget ⊢
      refine hasKey_addNode_mono g k v n f d ?_
      unfold MacroDependencyGraph.addNode at hget
      by_cases hk : g.hasKey k = true
      · rw [if_pos hk] at hget
        exact hinv q m hget d hd
      · rw [if_neg hk] at hget
        unfold MacroDependencyGraph.getNode at hget
        simp only [List.find?_append] at hget
        cases hfind : g.nodes.find? fun p => p.1 = q with
        | some p =>
            rw [hfind] at hget
            simp at hget
            rw [← hget] at hd
            exact hinv q p.2 (by
              unfold MacroDependencyGraph.getNode
              rw [hfind]
              rfl) d hd
        | none =>
            rw [hfind] at hget
            simp only [Option.none_or] at hget
            by_cases hkq : k = q
            · rw [List.find?_cons_of_pos _ (by simpa using hkq)] at hget
              simp at hget
              rw [← hget] at hd
              simp at hd
            · rw [List.find?_cons_of_neg _ (by simpa using hkq)] at hget
              simp at hget
  | addDep a b =>
      intro q m hget d hd
      have hb : g.hasKey b = true := hasKey_of_getValue_ne g b hstep
      simp only [applyOp] at hget ⊢
      unfold MacroDependencyGraph.addDependency at hget ⊢
      rw [getNode_updateEntry] at hget
      rw [hasKey_updateEntry]
      cases hfind : g.getNode q with
      | none => rw [hfind] at hget; simp at hget
      | some p =>
          rw [hfind] at hget
          simp at hget
          by_cases hqa : q = a
          · rw [if_pos hqa] at hget
            rw [← hget] at hd
            simp only at hd
            by_cases hbm : b ∈ p.dependencies
            · rw [if_pos hbm] at hd
              exact hinv q p hfind d hd
            · rw [if_neg hbm] at hd
              rcases List.mem_append.1 hd with hone | hone
              · exact hinv q p hfind d hone
              · simp only [List.mem_singleton] at hone
                exact hone ▸ hb
          · rw [if_neg hqa] at hget
            rw [← hget] at hd
            exact hinv q p hfind d hd
  | setResult k v a =>
      intro q m hget d hd
      simp only [applyOp] at hget ⊢
      unfold MacroDependencyGraph.setValue at hget ⊢
      rw [getNode_updateEntry] at hget
      rw [hasKey_updateEntry]
      cases hfind : g.getNode q with
      | none => rw [hfind] at hget; simp at hget
      | some p =>
          rw [hfind] at hget
          simp at hget
          by_cases hqk : q = k
          · rw [if_pos hqk] at hget
            rw [← hget] at hd
            exact hinv q p hfind d hd
          · rw [if_neg hqk] at hget
            rw [← hget] at hd
            exact hinv q p hfind d hd

/-- C1: dependency closure is an invariant of every operation sequence the
expansion discipline permits — starting from any dependency-closed graph
(the reset graph included), after any such sequence of `addSite` /
`addDep` / `setResult` operations, every key in any stored site's
dependency set is itself a stored site. -/
theorem C1_dependency_closure (g g' : MacroDependencyGraph)
    (ops : List GraphOp) (htrace : ExpansionTrace g ops g')
    (hinv : DepClosed g) : DepClosed g' := by
  induction htrace with
  | nil => exact hinv
  | cons op rest hstep _ ih => exact ih (depClosed_applyOp _ op hinv hstep)

/-- The reset (empty) macro graph. -/
def emptyGraph : MacroDependencyGraph := ⟨"/proj", []⟩

/-- A concrete expansion trace: two sites are discovered, the first is
computed, and the probing loop records a dependency on it. -/
def c1ops : List GraphOp :=
  [.addSite "src/a.ts:x" "x" (.callExpr "f$" [] "f$()") "src/a.ts",
   .addSite "src/a.ts:y" "y" (.callExpr "g$" [] "g$(x)") "src/a.ts",
   .setResult "src/a.ts:x" (.vnum 3) (.numLit 3),
   .addDep "src/a.ts:y" "src/a.ts:x"]

/-- Witness for C1 on the concrete trace `c1ops`. -/
theorem C1_dependency_closure_witness :
    DepClosed (List.foldl applyOp emptyGraph c1ops) := by
  refine C1_dependency_closure emptyGraph _ c1ops ?_ ?_
  · refine .cons _ _ trivial (.cons _ _ trivial (.cons _ _ trivial
      (.cons _ _ ?_ (.nil _))))
    exact fun hc => Value.noConfusion hc
  · intro k n h d hd
    simp [MacroDependencyGraph.getNode, emptyGraph] at h

/-! ## `topologicalSort` (claim C5) -/

/-- Outcomes of the sort: the thrown circular-dependency `Error` (whose
message joins the payload with `" -> "`), or fuel exhaustion — an artifact of
the embedding (the JS recursion is implicitly bounded by the growth of
`inProgress`), proved unreachable at the fuel `topologicalSort` supplies. -/
inductive SortError where
  | cycle (path : List String)
  | fuelOut
  deriving DecidableEq, Repr

/-- The two accumulators of the sort: the `visited` mark set and the output
list, both only ever appended to. -/
structure VisitState where
  visited : List String
  sorted : List String
  deriving DecidableEq, Repr

/-- The dependency list of the site stored at `k` (empty when absent). -/
def depsOf (g : MacroDependencyGraph) (k : String) : List String :=
  ((g.getNode k).map fun n => n.dependencies).getD []

mutual

/-- Embedding of the recursive `visit` closure of `topologicalSort`
(`src/unnamed/part_004`, lines 103–123): depth-first visitation with three
marks — re-entry on a `visited` key returns, re-entry on an `inProgress` key
throws the cycle error carrying `[...path, key]`, an absent key returns, and
otherwise the key is pushed onto `inProgress`, its dependencies are visited
with the extended path, and the key is marked visited and emitted. -/
def visit (g : MacroDependencyGraph) : Nat → String → List String →
    List String → VisitState → Except SortError VisitState
  | 0, _, _, _, _ => .error .fuelOut
  | fuel + 1, key, path, inProg, st =>
      if key ∈ st.visited then .ok st
      else if key ∈ inProg then .error (.cycle (path ++ [key]))
      else
        match g.getNode key with
        | none => .ok st
        | some node =>
            match visitList g fuel node.dependencies (path ++ [key])
                (inProg ++ [key]) st with
            | .error e => .error e
            | .ok st2 => .ok ⟨st2.visited ++ [key], st2.sorted ++ [key]⟩
termination_by fuel key path inProg st => (fuel, 0)

/-- The `for (const depKey of node.dependencies)` loop of `visit`. -/
def visitList (g : MacroDependencyGraph) : Nat → List String → List String →
    List String → VisitState → Except SortError VisitState
  | _, [], _, _, st => .ok st
  | fuel, d :: ds, path, inProg, st =>
      match visit g fuel d path inProg st with
      | .error e => .error e
      | .ok st2 => visitList g fuel ds path inProg st2
termination_by fuel ds path inProg st => (fuel, ds.length + 1)

end

/-- The `for (const key of this.nodes.keys())` loop of `topologicalSort`. -/
def visitKeys (g : MacroDependencyGraph) :
    List String → VisitState → Except SortError VisitState
  | [], st => .ok st
  | k :: ks, st =>
      match visit g (g.nodes.length + 1) k [] [] st with
      | .error e => .error e
      | .ok st2 => visitKeys g ks st2

/-- Embedding of `topologicalSort` (lines 98–130): visit every stored key
from empty mark sets and return the accumulated order.  The fuel
`g.nodes.length + 1` bounds the recursion depth, which in the source is
implicitly bounded because each nested call adds a distinct stored key to
`inProgress`. -/
def topologicalSort (g : MacroDependencyGraph) :
    Except SortError (List String) :=
  match visitKeys g (g.nodes.map Prod.fst) ⟨[], []⟩ with
  | .error e => .error e
  | .ok st => .ok st.sorted

/-- A dependency edge between stored-or-not keys. -/
def Edge (g : MacroDependencyGraph) (u v : String) : Prop :=
  v ∈ depsOf g u

/-- Every consecutive pair of the list is a dependency edge. -/
def ChainEdges (g : MacroDependencyGraph) : List String → Prop
  | [] => True
  | [_] => True
  | a :: b :: t => Edge g a b ∧ ChainEdges g (b :: t)

/-- A dependency cycle among keys present in the graph: a list of length at
least two whose consecutive elements are edges, whose first and last elements
coincide, and all of whose elements are stored sites. -/
def IsCycle (g : MacroDependencyGraph) (l : List String) : Prop :=
  2 ≤ l.length ∧ ChainEdges g l ∧ l.head? = l.getLast? ∧
    ∀ x ∈ l, g.hasKey x = true

/-- The thrown payload decomposes as some prefix followed by a genuine cycle
of the graph. -/
def GoodPayload (g : MacroDependencyGraph) (p : List String) : Prop :=
  ∃ pre cyc, p = pre ++ cyc ∧ IsCycle g cyc

theorem chainEdges_append_right (g : MacroDependencyGraph) :
    ∀ l₁ l₂, ChainEdges g (l₁ ++ l₂) → ChainEdges g l₂ := by
  intro l₁
  induction l₁ with
  | nil => intro l₂ h; exact h
  | cons a l ih =>
      intro l₂ h
      apply ih
      have h2 : ChainEdges g (a :: (l ++ l₂)) := h
      cases hl : l ++ l₂ with
      | nil => trivial
      | cons b t =>
          rw [hl] at h2
          exact h2.2

theorem chainEdges_extend (g : MacroDependencyGraph) :
    ∀ l x, ChainEdges g l → (∀ a, l.getLast? = some a → Edge g a x) →
      ChainEdges g (l ++ [x]) := by
  intro l
  induction l with
  | nil => intro x _ _; trivial
  | cons a t ih =>
      intro x h hlast
      cases t with
      | nil =>
          refine ⟨hlast a rfl, trivial⟩
      | cons b t2 =>
          refine ⟨h.1, ih x h.2 ?_⟩
          intro c hc
          apply hlast
          rw [List.getLast?_cons_cons]
          exact hc

theorem hasKey_of_getNode (g : MacroDependencyGraph) (key : String)
    (n : MacroNode) (h : g.getNode key = some n) : g.hasKey key = true := by
  unfold MacroDependencyGraph.getNode at h
  unfold MacroDependencyGraph.hasKey
  cases hf : g.nodes.find? fun p => p.1 = key with
  | none => rw [hf] at h; simp at h
  | some p =>
      have hp := List.find?_some hf
      have hmem := List.mem_of_find?_eq_some hf
      simp only [List.any_eq_true]
      exact ⟨p, hmem, hp⟩

/-- Whenever `visit` / `visitList` throw the cycle error — called, as the
sort calls them, with `inProgress` equal to the explicit path, each
consecutive pair of the path an edge, and every path element stored — the
thrown payload ends with a genuine cycle of the graph. -/
theorem visit_cycle_payload (g : MacroDependencyGraph) : ∀ fuel : Nat,
    (∀ key path st p,
      ChainEdges g (path ++ [key]) → (∀ x ∈ path, g.hasKey x = true) →
      visit g fuel key path path st = .error (.cycle p) → GoodPayload g p)
    ∧ (∀ ds path st p,
      (∀ x ∈ path, g.hasKey x = true) →
      (∀ d ∈ ds, ChainEdges g (path ++ [d])) →
      visitList g fuel ds path path st = .error (.cycle p) →
      GoodPayload g p) := by
  intro fuel
  induction fuel with
  | zero =>
      constructor
      · intro key path st p _ _ hv
        simp [visit] at hv
      · intro ds path st p _ _ hv
        cases ds with
        | nil => simp [visitList] at hv
        | cons d ds => simp [visitList, visit] at hv
  | succ fuel ih =>
      have hP : ∀ key path st p,
          ChainEdges g (path ++ [key]) → (∀ x ∈ path, g.hasKey x = true) →
          visit g (fuel + 1) key path path st = .error (.cycle p) →
          GoodPayload g p := by
        intro key path st p hchain hkeys hv
        simp only [visit] at hv
        by_cases h1 : key ∈ st.visited
        · rw [if_pos h1] at hv
          simp at hv
        · rw [if_neg h1] at hv
          by_cases h2 : key ∈ path
          · rw [if_pos h2] at hv
            simp only [Except.error.injEq, SortError.cycle.injEq] at hv
            subst hv
            obtain ⟨s, t, rfl⟩ := List.append_of_mem h2
            refine ⟨s, key :: (t ++ [key]), by simp, ?_, ?_, ?_, ?_⟩
            · simp
            · have : s ++ key :: t ++ [key] = s ++ (key :: (t ++ [key])) := by
                simp
              rw [this] at hchain
              exact chainEdges_append_right g s _ hchain
            · rw [show key :: (t ++ [key]) = (key :: t) ++ [key] by simp,
                List.getLast?_concat]
              rfl
            · intro x hx
              rcases List.mem_cons.1 hx with rfl | hx2
              · exact hkeys x h2
              · rcases List.mem_append.1 hx2 with hx3 | hx3
                · exact hkeys x (by simp [List.mem_append, hx3])
                · simp only [List.mem_singleton] at hx3
                  exact hx3 ▸ hkeys key h2
          · rw [if_neg h2] at hv
            cases hnode : g.getNode key with
            | none => rw [hnode] at hv; simp at hv
            | some node =>
                simp only [hnode] at hv
                cases hrec : visitList g fuel node.dependencies
                    (path ++ [key]) (path ++ [key]) st with
                | ok st2 => simp [hrec] at hv
                | error e =>
                    simp only [hrec, Except.error.injEq] at hv
                    subst hv
                    refine ih.2 node.dependencies (path ++ [key]) st p ?_ ?_ hrec
                    · intro x hx
                      rcases List.mem_append.1 hx with hx2 | hx2
                      · exact hkeys x hx2
                      · simp only [List.mem_singleton] at hx2
                        exact hx2 ▸ hasKey_of_getNode g key node hnode
                    · intro d hd
                      refine chainEdges_extend g _ d hchain ?_
                      intro a ha
                      rw [List.getLast?_concat] at ha
                      cases ha
                      show d ∈ depsOf g key
                      unfold depsOf
                      rw [hnode]
                      simpa using hd
      refine ⟨hP, ?_⟩
      intro ds path st p hkeys hchain hv
      induction ds generalizing st with
      | nil => simp [visitList] at hv
      | cons d ds ihds =>
          simp only [visitList] at hv
          cases hvst : visit g (fuel + 1) d path path st with
          | error e =>
              simp only [hvst, Except.error.injEq] at hv
              subst hv
              exact hP d path st p (hchain d (by simp)) hkeys hvst
          | ok st2 =>
              simp only [hvst] at hv
              exact ihds st2
                (fun d2 hd2 => hchain d2 (List.mem_cons_of_mem _ hd2)) hv

theorem mem_keys_of_hasKey (g : MacroDependencyGraph) (key : String)
    (h : g.hasKey key = true) : key ∈ g.nodes.map Prod.fst := by
  unfold MacroDependencyGraph.hasKey at h
  simp only [List.any_eq_true, decide_eq_true_eq] at h
  obtain ⟨p, hp, hpk⟩ := h
  exact hpk ▸ List.mem_map_of_mem Prod.fst hp

theorem getNode_isSome_of_hasKey (g : MacroDependencyGraph) (key : String)
    (h : g.hasKey key = true) : ∃ n, g.getNode key = some n := by
  unfold MacroDependencyGraph.hasKey at h
  unfold MacroDependencyGraph.getNode
  simp only [List.any_eq_true] at h
  obtain ⟨p, hp, hpk⟩ := h
  have : (g.nodes.find? fun q => q.1 = key).isSome := by
    rw [List.find?_isSome]
    exact ⟨p, hp, hpk⟩
  obtain ⟨q, hq⟩ := Option.isSome_iff_exists.1 this
  exact ⟨q.2, by rw [hq]; rfl⟩

theorem nodup_subset_length_le (l keys : List String) (hn : l.Nodup)
    (hsub : ∀ x ∈ l, x ∈ keys) : l.length ≤ keys.length := by
  classical
  calc l.length = l.toFinset.card := (List.toFinset_card_of_nodup hn).symm
    _ ≤ keys.toFinset.card := Finset.card_le_card (by
        intro x hx
        rw [List.mem_toFinset] at hx ⊢
        exact hsub x hx)
    _ ≤ keys.length := keys.toFinset_card_le

/-- With `inProgress` made of distinct stored keys and fuel exceeding the
number of stored sites not yet on the path, the fuel never runs out: this is
the embedding-level counterpart of the JS recursion being bounded by the
growth of `inProgress`. -/
theorem visit_no_fuelOut (g : MacroDependencyGraph) : ∀ fuel : Nat,
    (∀ key path st, path.Nodup → (∀ x ∈ path, g.hasKey x = true) →
      g.nodes.length - path.length < fuel →
      visit g fuel key path path st ≠ .error .fuelOut)
    ∧ (∀ ds path st, path.Nodup → (∀ x ∈ path, g.hasKey x = true) →
      g.nodes.length - path.length < fuel →
      visitList g fuel ds path path st ≠ .error .fuelOut) := by
  intro fuel
  induction fuel with
  | zero =>
      constructor
      · intro key path st _ _ hlt
        omega
      · intro ds path st _ _ hlt
        omega
  | succ fuel ih =>
      have hP : ∀ key path st, path.Nodup →
          (∀ x ∈ path, g.hasKey x = true) →
          g.nodes.length - path.length < fuel + 1 →
          visit g (fuel + 1) key path path st ≠ .error .fuelOut := by
        intro key path st hnodup hkeys hlt hv
        simp only [visit] at hv
        by_cases h1 : key ∈ st.visited
        · rw [if_pos h1] at hv
          simp at hv
        · rw [if_neg h1] at hv
          by_cases h2 : key ∈ path
          · rw [if_pos h2] at hv
            simp at hv
          · rw [if_neg h2] at hv
            cases hnode : g.getNode key with
            | none => rw [hnode] at hv; simp at hv
            | some node =>
                simp only [hnode] at hv
                cases hrec : visitList g fuel node.dependencies
                    (path ++ [key]) (path ++ [key]) st with
                | ok st2 => simp [hrec] at hv
                | error e =>
                    simp only [hrec, Except.error.injEq] at hv
                    subst hv
                    have hkey : g.hasKey key = true :=
                      hasKey_of_getNode g key node hnode
                    have hkeys2 : ∀ x ∈ path ++ [key], g.hasKey x = true := by
                      intro x hx
                      rcases List.mem_append.1 hx with hx2 | hx2
                      · exact hkeys x hx2
                      · simp only [List.mem_singleton] at hx2
                        exact hx2 ▸ hkey
                    have hlen : (path ++ [key]).length ≤ g.nodes.length := by
                      refine nodup_subset_length_le _ (g.nodes.map Prod.fst)
                        (by simp [List.nodup_append, hnodup, h2]) ?_ |>.trans
                        (by simp)
                      intro x hx
                      exact mem_keys_of_hasKey g x (hkeys2 x hx)
                    exact ih.2 node.dependencies (path ++ [key]) st
                      (by simp [List.nodup_append, hnodup, h2]) hkeys2
                      (by simp only [List.length_append, List.length_cons,
                            List.length_nil] at hlen ⊢
                          omega) hrec
      refine ⟨hP, ?_⟩
      intro ds path st hnodup hkeys hlt
      induction ds generalizing st with
      | nil => simp [visitList]
      | cons d ds ihds =>
          intro hv
          simp only [visitList] at hv
          cases hvst : visit g (fuel + 1) d path path st with
          | error e =>
              simp only [hvst, Except.error.injEq] at hv
              subst hv
              exact hP d path st hnodup hkeys hlt hvst
          | ok st2 =>
              simp only [hvst] at hv
              exact ihds st2 hv

/-- `l` is dependency-ordered: any present dependency of any element occurs
strictly earlier in the list. -/
def GoodOrder (g : MacroDependencyGraph) (l : List String) : Prop :=
  ∀ l₁ u l₂, l = l₁ ++ u :: l₂ → ∀ v, Edge g u v → g.hasKey v = true → v ∈ l₁

/-- The running invariant of the sort state: the `visited` set and `sorted`
output hold the same keys in the same order, without duplicates, and the
output is dependency-ordered. -/
def StWF (g : MacroDependencyGraph) (st : VisitState) : Prop :=
  st.visited = st.sorted ∧ st.sorted.Nodup ∧ GoodOrder g st.sorted

theorem goodOrder_nil (g : MacroDependencyGraph) : GoodOrder g [] := by
  intro l₁ u l₂ heq
  exact absurd heq (by simp)

theorem goodOrder_push (g : MacroDependencyGraph) (l : List String)
    (u : String) (h : GoodOrder g l)
    (hdeps : ∀ v, Edge g u v → g.hasKey v = true → v ∈ l) :
    GoodOrder g (l ++ [u]) := by
  intro l₁ w l₂ heq v hedge hkey
  rcases List.eq_nil_or_concat l₂ with rfl | ⟨l₂f, b, rfl⟩
  · have heq2 : l ++ [u] = l₁ ++ [w] := by simpa using heq
    obtain ⟨hl, hw⟩ := List.append_inj' heq2 rfl
    simp only [List.cons.injEq] at hw
    rw [← hl]
    exact hdeps v (hw.1 ▸ hedge) hkey
  · rw [List.concat_eq_append] at heq
    have heq2 : l ++ [u] = (l₁ ++ w :: l₂f) ++ [b] := by
      rw [heq]
      simp
    obtain ⟨hl, _⟩ := List.append_inj' heq2 rfl
    exact h l₁ w l₂f hl v hedge hkey

/-- The state invariants established by a successful visit: the state stays
well-formed, the output only grows by appending, keys not yet visited that
are on `inProgress` stay unvisited, and the visited key itself ends up
visited whenever it is stored. -/
theorem visit_ok_inv (g : MacroDependencyGraph) : ∀ fuel : Nat,
    (∀ key path inProg st st2, visit g fuel key path inProg st = .ok st2 →
      StWF g st → (∀ x ∈ inProg, x ∉ st.visited) →
      StWF g st2 ∧
      (∃ ext, st2.sorted = st.sorted ++ ext ∧
        st2.visited = st.visited ++ ext) ∧
      (∀ x ∈ inProg, x ∉ st2.visited) ∧
      (g.hasKey key = true → key ∈ st2.visited))
    ∧ (∀ ds path inProg st st2, visitList g fuel ds path inProg st = .ok st2 →
      StWF g st → (∀ x ∈ inProg, x ∉ st.visited) →
      StWF g st2 ∧
      (∃ ext, st2.sorted = st.sorted ++ ext ∧
        st2.visited = st.visited ++ ext) ∧
      (∀ x ∈ inProg, x ∉ st2.visited) ∧
      (∀ d ∈ ds, g.hasKey d = true → d ∈ st2.visited)) := by
  intro fuel
  induction fuel with
  | zero =>
      constructor
      · intro key path inProg st st2 hv
        simp [visit] at hv
      · intro ds path inProg st st2 hv hwf hdisj
        cases ds with
        | nil =>
            simp only [visitList, Except.ok.injEq] at hv
            subst hv
            exact ⟨hwf, ⟨[], by simp⟩, hdisj, by simp⟩
        | cons d ds => simp [visitList, visit] at hv
  | succ fuel ih =>
      have hP : ∀ key path inProg st st2,
          visit g (fuel + 1) key path inProg st = .ok st2 →
          StWF g st → (∀ x ∈ inProg, x ∉ st.visited) →
          StWF g st2 ∧
          (∃ ext, st2.sorted = st.sorted ++ ext ∧
            st2.visited = st.visited ++ ext) ∧
          (∀ x ∈ inProg, x ∉ st2.visited) ∧
          (g.hasKey key = true → key ∈ st2.visited) := by
        intro key path inProg st st2 hv hwf hdisj
        simp only [visit] at hv
        by_cases h1 : key ∈ st.visited
        · rw [if_pos h1] at hv
          simp only [Except.ok.injEq] at hv
          subst hv
          exact ⟨hwf, ⟨[], by simp⟩, hdisj, fun _ => h1⟩
        · rw [if_neg h1] at hv
          by_cases h2 : key ∈ inProg
          · rw [if_pos h2] at hv
            simp at hv
          · rw [if_neg h2] at hv
            cases hnode : g.getNode key with
            | none =>
                rw [hnode] at hv
                simp only [Except.ok.injEq] at hv
                subst hv
                refine ⟨hwf, ⟨[], by simp⟩, hdisj, ?_⟩
                intro hk
                obtain ⟨n, hn⟩ := getNode_isSome_of_hasKey g key hk
                rw [hn] at hnode
                cases hnode
            | some node =>
                simp only [hnode] at hv
                cases hrec : visitList g fuel node.dependencies (path ++ [key])
                    (inProg ++ [key]) st with
                | error e => simp [hrec] at hv
                | ok st3 =>
                    simp only [hrec, Except.ok.injEq] at hv
                    subst hv
                    have hdisj2 : ∀ x ∈ inProg ++ [key], x ∉ st.visited := by
                      intro x hx
                      rcases List.mem_append.1 hx with hx2 | hx2
                      · exact hdisj x hx2
                      · simp only [List.mem_singleton] at hx2
                        exact hx2 ▸ h1
                    obtain ⟨hwf3, ⟨ext, hext1, hext2⟩, hdisj3, hmem3⟩ :=
                      ih.2 node.dependencies (path ++ [key]) (inProg ++ [key])
                        st st3 hrec hwf hdisj2
                    have hkey3 : key ∉ st3.visited :=
                      hdisj3 key (by simp)
                    have hkey3s : key ∉ st3.sorted := hwf3.1 ▸ hkey3
                    refine ⟨⟨by rw [hwf3.1], ?_, ?_⟩, ?_, ?_, ?_⟩
                    · simp [List.nodup_append, hwf3.2.1, hkey3s]
                    · refine goodOrder_push g st3.sorted key hwf3.2.2 ?_
                      intro v hedge hkeyv
                      have hvdep : v ∈ node.dependencies := by
                        have hdn : depsOf g key = node.dependencies := by
                          unfold depsOf
                          rw [hnode]
                          rfl
                        rw [show Edge g key v = (v ∈ depsOf g key) from rfl,
                          hdn] at hedge
                        exact hedge
                      exact hwf3.1 ▸ hmem3 v hvdep hkeyv
                    · exact ⟨ext ++ [key], by simp [hext1], by simp [hext2]⟩
                    · intro x hx
                      simp only [List.mem_append, List.mem_singleton]
                      push_neg
                      refine ⟨hdisj3 x (by simp [hx]), ?_⟩
                      intro hxk
                      exact h2 (hxk ▸ hx)
                    · intro _
                      simp
      refine ⟨hP, ?_⟩
      intro ds path inProg st st2 hv hwf hdisj
      induction ds generalizing st with
      | nil =>
          simp only [visitList, Except.ok.injEq] at hv
          subst hv
          exact ⟨hwf, ⟨[], by simp⟩, hdisj, by simp⟩
      | cons d ds ihds =>
          simp only [visitList] at hv
          cases hvst : visit g (fuel + 1) d path inProg st with
          | error e => simp [hvst] at hv
          | ok st3 =>
              simp only [hvst] at hv
              obtain ⟨hwf3, ⟨ext3, hext31, hext32⟩, hdisj3, hd3⟩ :=
                hP d path inProg st st3 hvst hwf hdisj
              obtain ⟨hwf2, ⟨ext2, hext21, hext22⟩, hdisj2, hds2⟩ :=
                ihds st3 hv hwf3 hdisj3
              refine ⟨hwf2, ⟨ext3 ++ ext2, by simp [hext21, hext31],
                by simp [hext22, hext32]⟩, hdisj2, ?_⟩
              intro d2 hd2 hkey2
              rcases List.mem_cons.1 hd2 with rfl | hd2b
              · rw [hext22]
                exact List.mem_append_left _ (hd3 hkey2)
              · exact hds2 d2 hd2b hkey2

theorem visitKeys_ok_inv (g : MacroDependencyGraph) : ∀ ks st st2,
    visitKeys g ks st = .ok st2 → StWF g st →
    StWF g st2 ∧
    (∃ ext, st2.sorted = st.sorted ++ ext ∧
      st2.visited = st.visited ++ ext) ∧
    (∀ k ∈ ks, g.hasKey k = true → k ∈ st2.visited) := by
  intro ks
  induction ks with
  | nil =>
      intro st st2 hv hwf
      simp only [visitKeys, Except.ok.injEq] at hv
      subst hv
      exact ⟨hwf, ⟨[], by simp⟩, by simp⟩
  | cons k ks ih =>
      intro st st2 hv hwf
      simp only [visitKeys] at hv
      cases hvst : visit g (g.nodes.length + 1) k [] [] st with
      | error e => simp [hvst] at hv
      | ok st3 =>
          simp only [hvst] at hv
          obtain ⟨hwf3, ⟨e3, he31, he32⟩, _, hk3⟩ :=
            (visit_ok_inv g (g.nodes.length + 1)).1 k [] [] st st3 hvst hwf
              (by simp)
          obtain ⟨hwf2, ⟨e2, he21, he22⟩, hks2⟩ := ih st3 st2 hv hwf3
          refine ⟨hwf2, ⟨e3 ++ e2, by simp [he21, he31],
            by simp [he22, he32]⟩, ?_⟩
          intro k2 hk2 hkey2
          rcases List.mem_cons.1 hk2 with rfl | hk2b
          · rw [he22]
            exact List.mem_append_left _ (hk3 hkey2)
          · exact hks2 k2 hk2b hkey2

theorem visitKeys_no_fuelOut (g : MacroDependencyGraph) :
    ∀ ks st, visitKeys g ks st ≠ .error .fuelOut := by
  intro ks
  induction ks with
  | nil => intro st hv; simp [visitKeys] at hv
  | cons k ks ih =>
      intro st hv
      simp only [visitKeys] at hv
      cases hvst : visit g (g.nodes.length + 1) k [] [] st with
      | error e =>
          simp only [hvst, Except.error.injEq] at hv
          subst hv
          exact (visit_no_fuelOut g (g.nodes.length + 1)).1 k [] st
            (by simp) (by simp) (by omega) hvst
      | ok st3 =>
          simp only [hvst] at hv
          exact ih st3 hv

theorem visitKeys_cycle_payload (g : MacroDependencyGraph) :
    ∀ ks st p, visitKeys g ks st = .error (.cycle p) → GoodPayload g p := by
  intro ks
  induction ks with
  | nil => intro st p hv; simp [visitKeys] at hv
  | cons k ks ih =>
      intro st p hv
      simp only [visitKeys] at hv
      cases hvst : visit g (g.nodes.length + 1) k [] [] st with
      | error e =>
          simp only [hvst, Except.error.injEq] at hv
          subst hv
          refine (visit_cycle_payload g (g.nodes.length + 1)).1 k [] st p
            ?_ (by simp) hvst
          show ChainEdges g [k]
          simp [ChainEdges]
      | ok st3 =>
          simp only [hvst] at hv
          exact ih st3 p hv

theorem topologicalSort_ok_inv (g : MacroDependencyGraph) (l : List String)
    (h : topologicalSort g = .ok l) :
    l.Nodup ∧ GoodOrder g l ∧ ∀ k, g.hasKey k = true → k ∈ l := by
  unfold topologicalSort at h
  cases hv : visitKeys g (g.nodes.map Prod.fst) ⟨[], []⟩ with
  | error e => simp [hv] at h
  | ok st =>
      simp only [hv, Except.ok.injEq] at h
      subst h
      obtain ⟨hwf, _, hmem⟩ := visitKeys_ok_inv g (g.nodes.map Prod.fst)
        ⟨[], []⟩ st hv ⟨rfl, List.nodup_nil, goodOrder_nil g⟩
      refine ⟨hwf.2.1, hwf.2.2, ?_⟩
      intro k hk
      have := hmem k (mem_keys_of_hasKey g k hk) hk
      exact hwf.1 ▸ this

theorem index_lt_of_edge (g : MacroDependencyGraph) (l : List String)
    (hnodup : l.Nodup) (hord : GoodOrder g l) (u v : String) (hu : u ∈ l)
    (hedge : Edge g u v) (hv : g.hasKey v = true) :
    l.indexOf v < l.indexOf u := by
  obtain ⟨l₁, l₂, rfl⟩ := List.append_of_mem hu
  have hvmem : v ∈ l₁ := hord l₁ u l₂ rfl v hedge hv
  have hunotm : u ∉ l₁ := by
    intro hm
    obtain ⟨-, -, hdisj⟩ := List.nodup_append.1 hnodup
    exact hdisj hm (by simp)
  rw [List.indexOf_append_of_mem hvmem, List.indexOf_append_of_not_mem hunotm]
  have h1 : l₁.indexOf v < l₁.length := List.indexOf_lt_length.2 hvmem
  have h2 : (u :: l₂).indexOf u = 0 := by simp
  omega

theorem chain_index_descend (g : MacroDependencyGraph) (l : List String)
    (hnodup : l.Nodup) (hord : GoodOrder g l) :
    ∀ t a, ChainEdges g (a :: t) → (∀ x ∈ a :: t, g.hasKey x = true) →
    (∀ x ∈ a :: t, x ∈ l) → ∀ b, (a :: t).getLast? = some b → t ≠ [] →
    l.indexOf b < l.indexOf a := by
  intro t
  induction t with
  | nil =>
      intro a _ _ _ b _ hne
      exact absurd rfl hne
  | cons x t ih =>
      intro a hchain hkeys hmem b hlast _
      have hedge : Edge g a x := hchain.1
      cases t with
      | nil =>
          have hbx : b = x := by
            rw [List.getLast?_cons_cons] at hlast
            simpa using hlast.symm
          subst hbx
          exact index_lt_of_edge g l hnodup hord a b (hmem a (by simp)) hedge
            (hkeys b (by simp))
      | cons y t2 =>
          have h1 : l.indexOf b < l.indexOf x := by
            refine ih x hchain.2 (fun z hz => hkeys z (by simp [hz]))
              (fun z hz => hmem z (by simp [hz])) b ?_ (by simp)
            rw [List.getLast?_cons_cons] at hlast
            exact hlast
          have h2 : l.indexOf x < l.indexOf a :=
            index_lt_of_edge g l hnodup hord a x (hmem a (by simp)) hedge
              (hkeys x (by simp))
          omega

theorem not_isCycle_of_sort_ok (g : MacroDependencyGraph) (l : List String)
    (hok : topologicalSort g = .ok l) (c : List String) (hcyc : IsCycle g c) :
    False := by
  obtain ⟨hnodup, hord, hall⟩ := topologicalSort_ok_inv g l hok
  obtain ⟨hlen, hchain, hheadlast, hkeys⟩ := hcyc
  cases c with
  | nil => simp at hlen
  | cons a t =>
      cases t with
      | nil => simp at hlen
      | cons x t2 =>
          have hmem : ∀ z ∈ a :: x :: t2, z ∈ l := fun z hz =>
            hall z (hkeys z hz)
          have hlast : (a :: x :: t2).getLast? = some a := by
            rw [← hheadlast]
            rfl
          have := chain_index_descend g l hnodup hord (x :: t2) a hchain
            hkeys hmem a hlast (by simp)
          omega

/-- C5: every dependency cycle among keys present in the graph makes
`topologicalSort` throw the circular-dependency error, and the thrown payload
(the `" -> "`-joined path of the message) contains, as a contiguous run in
order, every node of the offending cycle it detected: the payload decomposes
as a prefix (the DFS ancestors of the cycle entry) followed by a genuine
cycle of the graph. -/
theorem C5_cycle_detection (g : MacroDependencyGraph) (c : List String)
    (hcyc : IsCycle g c) :
    ∃ p, topologicalSort g = .error (.cycle p) ∧ GoodPayload g p := by
  cases h : topologicalSort g with
  | ok l => exact absurd hcyc (fun hc => not_isCycle_of_sort_ok g l h c hc)
  | error e =>
      cases e with
      | fuelOut =>
          exfalso
          unfold topologicalSort at h
          cases hv : visitKeys g (g.nodes.map Prod.fst) ⟨[], []⟩ with
          | error e2 =>
              simp only [hv, Except.error.injEq] at h
              subst h
              exact visitKeys_no_fuelOut g _ _ hv
          | ok st => simp [hv] at h
      | cycle p =>
          refine ⟨p, rfl, ?_⟩
          unfold topologicalSort at h
          cases hv : visitKeys g (g.nodes.map Prod.fst) ⟨[], []⟩ with
          | error e2 =>
              simp only [hv, Except.error.injEq] at h
              subst h
              exact visitKeys_cycle_payload g _ _ p hv
          | ok st => simp [hv] at h

/-- A fresh, uncomputed macro site record for the C5 witness. -/
def mkSite (key vn : String) (deps : List String) : MacroNode :=
  ⟨key, vn, .callExpr "f$" [] "f$()", "src/a.ts", deps, .vundef, none, false⟩

/-- The two-site graph of the spec's cycle scenario:
`const p = f$(q); const q = f$(p);`. -/
def cyclicGraph : MacroDependencyGraph :=
  ⟨"/proj",
    [("src/a.ts:p", mkSite "src/a.ts:p" "p" ["src/a.ts:q"]),
     ("src/a.ts:q", mkSite "src/a.ts:q" "q" ["src/a.ts:p"])]⟩

/-- Witness for C5 on the concrete cyclic graph. -/
theorem C5_cycle_detection_witness :
    ∃ p, topologicalSort cyclicGraph = .error (.cycle p) ∧
      GoodPayload cyclicGraph p := by
  refine C5_cycle_detection cyclicGraph
    ["src/a.ts:p", "src/a.ts:q", "src/a.ts:p"] ⟨by simp, ?_, rfl, ?_⟩
  · refine ⟨?_, ?_, trivial⟩
    · show "src/a.ts:q" ∈ depsOf cyclicGraph "src/a.ts:p"
      decide
    · show "src/a.ts:p" ∈ depsOf cyclicGraph "src/a.ts:q"
      decide
  · intro x hx
    fin_cases hx <;> decide

/-! ## The Deploy Orchestrator (`deploy.ts`, claims C3, C4, C8) -/

/-- `ensure.swap` config. -/
structure SwapConfig where
  size : String
  deriving DecidableEq, Repr

/-- `ensure.docker` config (`addUserToGroup` optional). -/
structure DockerConfig where
  version : String
  addUserToGroup : Option Bool
  deriving DecidableEq, Repr

/-- `ensure.directory` config (`owner` optional). -/
structure DirectoryConfig where
  path : String
  owner : Option String
  deriving DecidableEq, Repr

/-- The `config` object stored in a lock-file ensure entry.  The source
compares configs by `JSON.stringify` equality; for these fixed-shape configs
(parsed from the same manifest, so with stable key order) that coincides with
structural equality. -/
inductive LockConfig where
  | swap (c : SwapConfig)
  | docker (c : DockerConfig)
  | directory (c : DirectoryConfig)
  deriving DecidableEq, Repr

/-- A lock-file ensure entry `{ version, config }`. -/
structure LockEntry where
  version : String
  config : LockConfig
  deriving DecidableEq, Repr

/-- The parsed lock file.  Faithful to `JSON.parse`: every field may be
absent (the `LockFile` interface's non-optional `ensures`/`once_actions` is a
TypeScript-level assumption that a hand-edited or older lock can violate).
The ensure mapping is the JSON object as an ordered association list. -/
structure ParsedLock where
  deployment_version : Option String
  ensures : Option (List (String × LockEntry))
  once_actions : Option (List String)
  deriving DecidableEq, Repr

/-- The `|| { ensures: {}, once_actions: [] }` fallback used when the lock
file is missing or unparseable. -/
def emptyLock : ParsedLock := ⟨none, some [], some []⟩

/-- An `ensure` operation's config: any subset of the three resource kinds. -/
structure EnsureSpec where
  swap : Option SwapConfig
  docker : Option DockerConfig
  directory : Option DirectoryConfig
  deriving DecidableEq, Repr

/-- The `when` discipline of an action. -/
inductive When where
  | always
  | once
  | never
  deriving DecidableEq, Repr

/-- An `action.rsync` spec. -/
structure RsyncSpec where
  source : String
  destination : Option String
  exclude : List String
  deriving DecidableEq, Repr

/-- An `action` operation's config. -/
structure ActionSpec where
  rsync : Option RsyncSpec
  command : Option String
  deriving DecidableEq, Repr

/-- A `verify.http` spec. -/
structure HttpSpec where
  url : String
  timeout : Option String
  deriving DecidableEq, Repr

/-- A `verify` operation's config. -/
structure VerifySpec where
  http : Option HttpSpec
  command : Option String
  deriving DecidableEq, Repr

/-- A manifest operation (`Operation` in `deploy.ts`): ensure, action (with
its optional `when`), or verify. -/
inductive Operation where
  | ensure (name : String) (spec : EnsureSpec)
  | action (name : String) (w : Option When) (spec : ActionSpec)
  | verify (name : String) (spec : VerifySpec)
  deriving DecidableEq, Repr

/-- The target as the handlers see it: its optional `user` and its role as
interpolation context (`this.target`). -/
structure Target where
  user : Option String
  ctx : String → Option Value

/-- The only failure mode of the modelled handlers (strategy calls are
modelled as always succeeding): a JavaScript `TypeError` from reading a
property of an `undefined` lock field. -/
inductive DeployError where
  | typeError (field : String)
  deriving DecidableEq, Repr

/-- Observable strategy-level effects of a deploy run, in order: install
scripts (`strategy.runScript`), shell commands, directory syncs, lock-file
writes (`saveLock` and the handshake write), and the two console progress
markers — `→ Ensuring:` printed exactly when an install runs, `→ Running:`
printed exactly when an action body runs (annotated here with the `when`
discipline in force). -/
inductive DeployEffect where
  | runScript (key : String)
  | runCommand (cmd : String) (silent : Bool)
  | sync (src dest : String) (exclude : List String)
  | uploadLock (lock : ParsedLock)
  | ensuring (name : String)
  | running (name : String) (w : When)
  deriving DecidableEq, Repr

/-- Look up an ensure entry in the lock's ensure object. -/
def lookupEnsure (es : List (String × LockEntry)) (k : String) :
    Option LockEntry :=
  (es.find? fun p => p.1 = k).map Prod.snd

/-- `this.lock.ensures[key] = entry`: update in place or append. -/
def upsertEnsure (es : List (String × LockEntry)) (k : String)
    (e : LockEntry) : List (String × LockEntry) :=
  if es.any (fun p => p.1 = k) then
    es.map fun p => if p.1 = k then (k, e) else p
  else
    es ++ [(k, e)]

/-- Embedding of `OperationHandler.ensureSwap` (`deploy.ts`, lines 621–648).
Reading `this.lock.ensures` when the field is absent is the JavaScript
`TypeError`.  Install when forced, unlocked, version-mismatched or
config-changed; on install run the swap script, store
`{version: size, config}` and save the lock. -/
def ensureSwap (tgt : Target) (forceEnsure : Bool) (name : String)
    (cfg : SwapConfig) (lock : ParsedLock) :
    Except DeployError (List DeployEffect × ParsedLock) :=
  match lock.ensures with
  | none => .error (.typeError "ensures")
  | some es =>
      let locked := lookupEnsure es "swap"
      let configChanged :=
        decide ((locked.map fun e => e.config) ≠ some (.swap cfg))
      if forceEnsure || locked.isNone ||
          decide ((locked.map fun e => e.version) ≠ some cfg.size) ||
          configChanged then
        let lock2 : ParsedLock :=
          { lock with
              ensures := some (upsertEnsure es "swap" ⟨cfg.size, .swap cfg⟩) }
        .ok ([.ensuring name, .runScript "swap", .uploadLock lock2], lock2)
      else
        .ok ([], lock)

/-- Embedding of `OperationHandler.ensureDocker` (lines 650–681): same shape
with key `"docker"` and version `cfg.version`. -/
def ensureDocker (tgt : Target) (forceEnsure : Bool) (name : String)
    (cfg : DockerConfig) (lock : ParsedLock) :
    Except DeployError (List DeployEffect × ParsedLock) :=
  match lock.ensures with
  | none => .error (.typeError "ensures")
  | some es =>
      let locked := lookupEnsure es "docker"
      let configChanged :=
        decide ((locked.map fun e => e.config) ≠ some (.docker cfg))
      if forceEnsure || locked.isNone ||
          decide ((locked.map fun e => e.version) ≠ some cfg.version) ||
          configChanged then
        let lock2 : ParsedLock :=
          { lock with
              ensures := some
                (upsertEnsure es "docker" ⟨cfg.version, .docker cfg⟩) }
        .ok ([.ensuring name, .runScript "docker", .uploadLock lock2], lock2)
      else
        .ok ([], lock)

/-- Embedding of `OperationHandler.ensureDirectory` (lines 683–717): key
`directory_<raw path>`, no version comparison, a (silent) `mkdir -p` of the
interpolated path, a `chown` when the target has a user, and an entry whose
version is the interpolated path. -/
def ensureDirectory (tgt : Target) (forceEnsure : Bool) (name : String)
    (cfg : DirectoryConfig) (lock : ParsedLock) :
    Except DeployError (List DeployEffect × ParsedLock) :=
  match lock.ensures with
  | none => .error (.typeError "ensures")
  | some es =>
      let key := "directory_" ++ cfg.path
      let locked := lookupEnsure es key
      let configChanged :=
        decide ((locked.map fun e => e.config) ≠ some (.directory cfg))
      if forceEnsure || locked.isNone || configChanged then
        let dirPath := interpolate (some cfg.path) tgt.ctx
        let chown :=
          match tgt.user with
          | some u =>
              let owner :=
                match cfg.owner with
                | some o => interpolate (some o) tgt.ctx
                | none => u
              [DeployEffect.runCommand
                ("sudo chown -R " ++ owner ++ ":" ++ owner ++ " " ++ dirPath)
                true]
          | none => []
        let lock2 : ParsedLock :=
          { lock with
              ensures := some
                (upsertEnsure es key ⟨dirPath, .directory cfg⟩) }
        .ok ([DeployEffect.ensuring name,
              DeployEffect.runCommand ("mkdir -p " ++ dirPath) true] ++
              chown ++ [DeployEffect.uploadLock lock2], lock2)
      else
        .ok ([], lock)

/-- Embedding of `OperationHandler.handleEnsure` (lines 600–619): run
whichever of the three resource kinds the spec declares, in order. -/
def handleEnsure (tgt : Target) (forceEnsure : Bool) (name : String)
    (spec : EnsureSpec) (lock : ParsedLock) :
    Except DeployError (List DeployEffect × ParsedLock) :=
  match (match spec.swap with
          | some cfg => ensureSwap tgt forceEnsure name cfg lock
          | none => .ok ([], lock)) with
  | .error e => .error e
  | .ok (e1, lock1) =>
      match (match spec.docker with
              | some cfg => ensureDocker tgt forceEnsure name cfg lock1
              | none => .ok ([], lock1)) with
      | .error e => .error e
      | .ok (e2, lock2) =>
          match (match spec.directory with
                  | some cfg => ensureDirectory tgt forceEnsure name cfg lock2
                  | none => .ok ([], lock2)) with
          | .error e => .error e
          | .ok (e3, lock3) => .ok (e1 ++ e2 ++ e3, lock3)

/-- The effects of one executed action body, in source order: the
`→ Running:` marker, the optional rsync (with interpolated destination), the
optional interpolated command. -/
def actionBodyEffects (tgt : Target) (name : String) (whenV : When)
    (spec : ActionSpec) : List DeployEffect :=
  [DeployEffect.running name whenV] ++
  (match spec.rsync with
    | some r =>
        [DeployEffect.sync r.source
          (interpolate (some (r.destination.getD ".")) tgt.ctx) r.exclude]
    | none => []) ++
  (match spec.command with
    | some c =>
        [DeployEffect.runCommand (interpolate (some c) tgt.ctx) false]
    | none => [])

/-- Embedding of `OperationHandler.handleAction` (lines 719–755): `never`
skips; a `once` action already in `once_actions` skips (reading
`once_actions.includes` with the field absent is the TypeError); otherwise
the body runs — the optional rsync with interpolated destination, then the
optional interpolated command — and a completed `once` action is appended to
the lock, which is saved. -/
def handleAction (tgt : Target) (name : String) (w : Option When)
    (spec : ActionSpec) (lock : ParsedLock) :
    Except DeployError (List DeployEffect × ParsedLock) :=
  let whenV := w.getD .always
  if whenV = .never then
    .ok ([], lock)
  else
    let actionId := "action_" ++ name
    if whenV = .once then
      match lock.once_actions with
      | none => .error (.typeError "once_actions")
      | some la =>
          if actionId ∈ la then
            .ok ([], lock)
          else
            let lock2 : ParsedLock :=
              { lock with once_actions := some (la ++ [actionId]) }
            .ok (actionBodyEffects tgt name whenV spec ++
              [DeployEffect.uploadLock lock2], lock2)
    else
      .ok (actionBodyEffects tgt name whenV spec, lock)

/-- Embedding of `OperationHandler.handleVerify` (lines 757–777): a (silent)
`curl` for an http check and a (silent) interpolated command; the lock is
untouched.  (Verification failures are strategy-level command failures,
outside the always-succeeding strategy model.) -/
def handleVerify (tgt : Target) (name : String) (spec : VerifySpec)
    (lock : ParsedLock) :
    Except DeployError (List DeployEffect × ParsedLock) :=
  let httpEffs :=
    match spec.http with
    | some h =>
        [DeployEffect.runCommand
          ("curl -f --max-time " ++ h.timeout.getD "30s" ++ " " ++
            interpolate (some h.url) tgt.ctx) true]
    | none => []
  let cmdEffs :=
    match spec.command with
    | some c =>
        [DeployEffect.runCommand (interpolate (some c) tgt.ctx) true]
    | none => []
  .ok (httpEffs ++ cmdEffs, lock)

/-- Dispatch of one operation in the `for (const op of target.operations)`
loop. -/
def handleOp (tgt : Target) (forceEnsure : Bool) (op : Operation)
    (lock : ParsedLock) :
    Except DeployError (List DeployEffect × ParsedLock) :=
  match op with
  | .ensure name spec => handleEnsure tgt forceEnsure name spec lock
  | .action name w spec => handleAction tgt name w spec lock
  | .verify name spec => handleVerify tgt name spec lock

/-- The operation loop: an operation failure aborts the remainder. -/
def runOps (tgt : Target) (forceEnsure : Bool) :
    List Operation → ParsedLock →
    Except DeployError (List DeployEffect × ParsedLock)
  | [], lock => .ok ([], lock)
  | op :: rest, lock =>
      match handleOp tgt forceEnsure op lock with
      | .error e => .error e
      | .ok (effs, lock2) =>
          match runOps tgt forceEnsure rest lock2 with
          | .error e => .error e
          | .ok (effs2, lock3) => .ok (effs ++ effs2, lock3)

/-- Embedding of the version handshake of `deploy` (lines 827–832): if the
lock's recorded `deployment_version` differs from the manifest's, clear
`once_actions`, record the new version and write the lock at once; otherwise
do nothing. -/
def versionHandshake (lock : ParsedLock) (v : String) :
    ParsedLock × List DeployEffect :=
  if lock.deployment_version = some v then
    (lock, [])
  else
    let lock2 : ParsedLock :=
      { lock with deployment_version := some v, once_actions := some [] }
    (lock2, [DeployEffect.uploadLock lock2])

/-- Embedding of `deploy` (lines 787–859) after strategy connection:
`parsed` is the `readJson` result for the lock file (`none` for a missing or
unparseable file), defaulted to the empty lock; then the version handshake;
then the operation loop. -/
def deployModel (parsed : Option ParsedLock) (v : String) (tgt : Target)
    (forceEnsure : Bool) (ops : List Operation) :
    Except DeployError (List DeployEffect × ParsedLock) :=
  match runOps tgt forceEnsure ops
      (versionHandshake (parsed.getD emptyLock) v).1 with
  | .error e => .error e
  | .ok (tr, lock2) =>
      .ok ((versionHandshake (parsed.getD emptyLock) v).2 ++ tr, lock2)

/-- C4: the version handshake's exact frame.  When the recorded
`deployment_version` differs from the manifest's, the handshake empties
`once_actions`, records the new version, leaves the ensure mapping unchanged
and writes exactly the updated lock; when the versions agree it changes and
writes nothing.  Moreover, in a run whose recorded version differs, the very
first emitted effect of the whole deploy — before any operation dispatch —
is that lock write. -/
theorem C4_version_handshake :
    (∀ (lock : ParsedLock) (v : String), lock.deployment_version ≠ some v →
      (versionHandshake lock v).1.deployment_version = some v ∧
      (versionHandshake lock v).1.once_actions = some [] ∧
      (versionHandshake lock v).1.ensures = lock.ensures ∧
      (versionHandshake lock v).2 =
        [DeployEffect.uploadLock (versionHandshake lock v).1]) ∧
    (∀ (lock : ParsedLock) (v : String), lock.deployment_version = some v →
      versionHandshake lock v = (lock, [])) ∧
    (∀ (parsed : Option ParsedLock) (v : String) (tgt : Target)
        (forceEnsure : Bool) (ops : List Operation)
        (tr : List DeployEffect) (l : ParsedLock),
      deployModel parsed v tgt forceEnsure ops = .ok (tr, l) →
      (parsed.getD emptyLock).deployment_version ≠ some v →
      ∃ rest, tr = DeployEffect.uploadLock
        (versionHandshake (parsed.getD emptyLock) v).1 :: rest) := by
  refine ⟨?_, ?_, ?_⟩
  · intro lock v hne
    unfold versionHandshake
    rw [if_neg hne]
    exact ⟨rfl, rfl, rfl, rfl⟩
  · intro lock v heq
    unfold versionHandshake
    rw [if_pos heq]
  · intro parsed v tgt forceEnsure ops tr l hok hne
    unfold deployModel at hok
    have hshake : versionHandshake (parsed.getD emptyLock) v
        = ({parsed.getD emptyLock with
              deployment_version := some v, once_actions := some []},
           [DeployEffect.uploadLock
             {parsed.getD emptyLock with
               deployment_version := some v, once_actions := some []}]) := by
      unfold versionHandshake
      rw [if_neg hne]
    rw [hshake]
    simp only [hshake] at hok
    cases hrun : runOps tgt forceEnsure ops
        {parsed.getD emptyLock with
          deployment_version := some v, once_actions := some []} with
    | error e =>
        simp only [hrun] at hok
        cases hok
    | ok p =>
        obtain ⟨tr0, l0⟩ := p
        simp only [hrun] at hok
        injection hok with h2
        injection h2 with htr hl
        exact ⟨tr0, htr.symm⟩

/-- Witness for C4 at a concrete lock: a differing version empties
`once_actions` and preserves `ensures`; an equal version changes nothing;
the handshake write heads the deploy trace. -/
theorem C4_version_handshake_witness :
    (versionHandshake
        ⟨some "1.0.0", some [("swap", ⟨"2G", .swap ⟨"2G"⟩⟩)],
          some ["action_x"]⟩ "1.1.0").1.once_actions = some [] ∧
    (versionHandshake
        ⟨some "1.0.0", some [("swap", ⟨"2G", .swap ⟨"2G"⟩⟩)],
          some ["action_x"]⟩ "1.1.0").1.ensures
      = some [("swap", ⟨"2G", .swap ⟨"2G"⟩⟩)] ∧
    versionHandshake
        ⟨some "1.0.0", some [("swap", ⟨"2G", .swap ⟨"2G"⟩⟩)],
          some ["action_x"]⟩ "1.0.0"
      = (⟨some "1.0.0", some [("swap", ⟨"2G", .swap ⟨"2G"⟩⟩)],
          some ["action_x"]⟩, []) ∧
    (∃ rest, [DeployEffect.uploadLock
        ⟨some "1.1.0", some [("swap", ⟨"2G", .swap ⟨"2G"⟩⟩)], some []⟩]
      = DeployEffect.uploadLock
          (versionHandshake
            ⟨some "1.0.0", some [("swap", ⟨"2G", .swap ⟨"2G"⟩⟩)],
              some ["action_x"]⟩ "1.1.0").1 :: rest) := by
  have h1 := C4_version_handshake.1
    ⟨some "1.0.0", some [("swap", ⟨"2G", .swap ⟨"2G"⟩⟩)], some ["action_x"]⟩
    "1.1.0" (by decide)
  have h2 := C4_version_handshake.2.1
    ⟨some "1.0.0", some [("swap", ⟨"2G", .swap ⟨"2G"⟩⟩)], some ["action_x"]⟩
    "1.0.0" rfl
  have h3 := C4_version_handshake.2.2
    (some ⟨some "1.0.0", some [("swap", ⟨"2G", .swap ⟨"2G"⟩⟩)],
      some ["action_x"]⟩)
    "1.1.0" ⟨none, fun _ => none⟩ false [] _ _ rfl (by decide)
  exact ⟨h1.2.1, h1.2.2.1, h2, h3⟩

/-- Both optional lock fields are present. -/
def LockFields (lock : ParsedLock) : Prop :=
  lock.ensures.isSome ∧ lock.once_actions.isSome

theorem ensureSwap_ok (tgt : Target) (forceEnsure : Bool) (name : String)
    (cfg : SwapConfig) (lock : ParsedLock) (hf : lock.ensures.isSome) :
    ∃ effs lock2, ensureSwap tgt forceEnsure name cfg lock = .ok (effs, lock2)
      ∧ lock2.ensures.isSome
      ∧ lock2.once_actions = lock.once_actions
      ∧ lock2.deployment_version = lock.deployment_version := by
  unfold ensureSwap
  cases hes : lock.ensures with
  | none => rw [hes] at hf; cases hf
  | some es =>
      simp only [hes]
      split
      · exact ⟨_, _, rfl, by simp, rfl, rfl⟩
      · exact ⟨_, _, rfl, by rw [hes]; simp, rfl, rfl⟩

theorem ensureDocker_ok (tgt : Target) (forceEnsure : Bool) (name : String)
    (cfg : DockerConfig) (lock : ParsedLock) (hf : lock.ensures.isSome) :
    ∃ effs lock2,
      ensureDocker tgt forceEnsure name cfg lock = .ok (effs, lock2)
      ∧ lock2.ensures.isSome
      ∧ lock2.once_actions = lock.once_actions
      ∧ lock2.deployment_version = lock.deployment_version := by
  unfold ensureDocker
  cases hes : lock.ensures with
  | none => rw [hes] at hf; cases hf
  | some es =>
      simp only [hes]
      split
      · exact ⟨_, _, rfl, by simp, rfl, rfl⟩
      · exact ⟨_, _, rfl, by rw [hes]; simp, rfl, rfl⟩

theorem ensureDirectory_ok (tgt : Target) (forceEnsure : Bool) (name : String)
    (cfg : DirectoryConfig) (lock : ParsedLock) (hf : lock.ensures.isSome) :
    ∃ effs lock2,
      ensureDirectory tgt forceEnsure name cfg lock = .ok (effs, lock2)
      ∧ lock2.ensures.isSome
      ∧ lock2.once_actions = lock.once_actions
      ∧ lock2.deployment_version = lock.deployment_version := by
  unfold ensureDirectory
  cases hes : lock.ensures with
  | none => rw [hes] at hf; cases hf
  | some es =>
      simp only [hes]
      split
      · exact ⟨_, _, rfl, by simp, rfl, rfl⟩
      · exact ⟨_, _, rfl, by rw [hes]; simp, rfl, rfl⟩

theorem handleEnsure_ok (tgt : Target) (forceEnsure : Bool) (name : String)
    (spec : EnsureSpec) (lock : ParsedLock) (hf : lock.ensures.isSome) :
    ∃ effs lock2,
      handleEnsure tgt forceEnsure name spec lock = .ok (effs, lock2)
      ∧ lock2.ensures.isSome
      ∧ lock2.once_actions = lock.once_actions
      ∧ lock2.deployment_version = lock.deployment_version := by
  unfold handleEnsure
  have step1 : ∃ effs lock2,
      (match spec.swap with
        | some cfg => ensureSwap tgt forceEnsure name cfg lock
        | none => .ok ([], lock)) = .ok (effs, lock2)
      ∧ lock2.ensures.isSome ∧ lock2.once_actions = lock.once_actions
      ∧ lock2.deployment_version = lock.deployment_version := by
    cases spec.swap with
    | some cfg => exact ensureSwap_ok tgt forceEnsure name cfg lock hf
    | none => exact ⟨[], lock, rfl, hf, rfl, rfl⟩
  obtain ⟨e1, lock1, h1, hf1, ho1, hd1⟩ := step1
  have step2 : ∃ effs lock2,
      (match spec.docker with
        | some cfg => ensureDocker tgt forceEnsure name cfg lock1
        | none => .ok ([], lock1)) = .ok (effs, lock2)
      ∧ lock2.ensures.isSome ∧ lock2.once_actions = lock1.once_actions
      ∧ lock2.deployment_version = lock1.deployment_version := by
    cases spec.docker with
    | some cfg => exact ensureDocker_ok tgt forceEnsure name cfg lock1 hf1
    | none => exact ⟨[], lock1, rfl, hf1, rfl, rfl⟩
  obtain ⟨e2, lock2, h2, hf2, ho2, hd2⟩ := step2
  have step3 : ∃ effs lock3,
      (match spec.directory with
        | some cfg => ensureDirectory tgt forceEnsure name cfg lock2
        | none => .ok ([], lock2)) = .ok (effs, lock3)
      ∧ lock3.ensures.isSome ∧ lock3.once_actions = lock2.once_actions
      ∧ lock3.deployment_version = lock2.deployment_version := by
    cases spec.directory with
    | some cfg => exact ensureDirectory_ok tgt forceEnsure name cfg lock2 hf2
    | none => exact ⟨[], lock2, rfl, hf2, rfl, rfl⟩
  obtain ⟨e3, lock3, h3, hf3, ho3, hd3⟩ := step3
  refine ⟨e1 ++ e2 ++ e3, lock3, ?_, hf3, by rw [ho3, ho2, ho1],
    by rw [hd3, hd2, hd1]⟩
  simp only [h1, h2, h3]

theorem handleAction_ok (tgt : Target) (name : String) (w : Option When)
    (spec : ActionSpec) (lock : ParsedLock) (hf : lock.once_actions.isSome) :
    ∃ effs lock2, handleAction tgt name w spec lock = .ok (effs, lock2)
      ∧ lock2.ensures = lock.ensures
      ∧ lock2.once_actions.isSome
      ∧ lock2.deployment_version = lock.deployment_version := by
  unfold handleAction
  by_cases hnever : w.getD .always = .never
  · simp only [if_pos hnever]
    exact ⟨[], lock, rfl, rfl, hf, rfl⟩
  · simp only [if_neg hnever]
    by_cases honce : w.getD .always = .once
    · simp only [if_pos honce]
      cases hoa : lock.once_actions with
      | none => rw [hoa] at hf; cases hf
      | some la =>
          simp only [hoa]
          by_cases hin : ("action_" ++ name) ∈ la
          · simp only [if_pos hin]
            exact ⟨[], lock, rfl, rfl, hf, rfl⟩
          · simp only [if_neg hin]
            exact ⟨_, _, rfl, rfl, by simp, rfl⟩
    · simp only [if_neg honce]
      exact ⟨_, _, rfl, rfl, hf, rfl⟩

theorem handleOp_ok (tgt : Target) (forceEnsure : Bool) (op : Operation)
    (lock : ParsedLock) (hf : LockFields lock) :
    ∃ effs lock2, handleOp tgt forceEnsure op lock = .ok (effs, lock2)
      ∧ LockFields lock2
      ∧ lock2.deployment_version = lock.deployment_version := by
  cases op with
  | ensure name spec =>
      obtain ⟨effs, lock2, h, hf2, ho2, hd2⟩ :=
        handleEnsure_ok tgt forceEnsure name spec lock hf.1
      exact ⟨effs, lock2, h, ⟨hf2, ho2 ▸ hf.2⟩, hd2⟩
  | action name w spec =>
      obtain ⟨effs, lock2, h, he2, ho2, hd2⟩ :=
        handleAction_ok tgt name w spec lock hf.2
      exact ⟨effs, lock2, h, ⟨he2 ▸ hf.1, ho2⟩, hd2⟩
  | verify name spec =>
      exact ⟨_, lock, rfl, hf, rfl⟩

theorem runOps_ok (tgt : Target) (forceEnsure : Bool) :
    ∀ (ops : List Operation) (lock : ParsedLock), LockFields lock →
    ∃ tr lock2, runOps tgt forceEnsure ops lock = .ok (tr, lock2)
      ∧ LockFields lock2
      ∧ lock2.deployment_version = lock.deployment_version := by
  intro ops
  induction ops with
  | nil => intro lock hf; exact ⟨[], lock, rfl, hf, rfl⟩
  | cons op rest ih =>
      intro lock hf
      obtain ⟨effs, lock2, h, hf2, hd2⟩ := handleOp_ok tgt forceEnsure op lock hf
      obtain ⟨tr, lock3, h3, hf3, hd3⟩ := ih lock2 hf2
      refine ⟨effs ++ tr, lock3, ?_, hf3, by rw [hd3, hd2]⟩
      unfold runOps
      simp only [h, h3]

/-- C8 counterexample to the claim as stated: a parseable lock whose
`ensures` and `once_actions` fields are absent does not have them defaulted
to empty — dispatching a `when: once` action reads
`this.lock.once_actions.includes` and crashes with a TypeError (surfaced as
the operation's failure), instead of dispatching without error. -/
theorem C8_counterexample :
    deployModel (some ⟨some "1.0.0", none, none⟩) "1.0.0"
      ⟨none, fun _ => none⟩ false
      [.action "migrate" (some .once) ⟨none, some "./migrate.sh"⟩]
      = .error (.typeError "once_actions") := rfl

/-- C8, amended: when the lock file is missing or unparseable (`readJson`
returned null), deploy proceeds with the empty lock — both fields present
and empty — and every operation of any manifest dispatches without error.
But a parseable lock file that merely LACKS the `ensures` or `once_actions`
field does not have the absent field defaulted: with the recorded version
unchanged, dispatching a `when: once` action with `once_actions` absent, or
an ensure with `ensures` absent, fails with a TypeError. -/
theorem C8_lock_tolerance :
    (∀ (v : String) (tgt : Target) (forceEnsure : Bool)
        (ops : List Operation),
      ∃ tr lock2, deployModel none v tgt forceEnsure ops = .ok (tr, lock2)) ∧
    (∀ (lock : ParsedLock) (v : String) (tgt : Target) (forceEnsure : Bool)
        (name : String) (spec : ActionSpec) (rest : List Operation),
      lock.deployment_version = some v → lock.once_actions = none →
      deployModel (some lock) v tgt forceEnsure
        (.action name (some .once) spec :: rest)
        = .error (.typeError "once_actions")) ∧
    (∀ (lock : ParsedLock) (v : String) (tgt : Target) (forceEnsure : Bool)
        (name : String) (cfg : SwapConfig) (rest : List Operation),
      lock.deployment_version = some v → lock.ensures = none →
      deployModel (some lock) v tgt forceEnsure
        (.ensure name ⟨some cfg, none, none⟩ :: rest)
        = .error (.typeError "ensures")) := by
  refine ⟨?_, ?_, ?_⟩
  · intro v tgt forceEnsure ops
    unfold deployModel
    have hne : (Option.getD (none : Option ParsedLock) emptyLock).deployment_version
        ≠ some v := by
      simp [emptyLock]
    have hshake : versionHandshake
        (Option.getD (none : Option ParsedLock) emptyLock) v
        = ({(Option.getD (none : Option ParsedLock) emptyLock) with
              deployment_version := some v, once_actions := some []},
           [DeployEffect.uploadLock
             {(Option.getD (none : Option ParsedLock) emptyLock) with
               deployment_version := some v, once_actions := some []}]) := by
      unfold versionHandshake
      rw [if_neg hne]
    obtain ⟨tr, lock2, h, _, _⟩ := runOps_ok tgt forceEnsure ops
      {(Option.getD (none : Option ParsedLock) emptyLock) with
        deployment_version := some v, once_actions := some []}
      ⟨by simp [emptyLock], by simp⟩
    simp only [hshake, h]
    exact ⟨_, lock2, rfl⟩
  · intro lock v tgt forceEnsure name spec rest hv hoa
    unfold deployModel
    have hshake : versionHandshake (Option.getD (some lock) emptyLock) v
        = (lock, []) := by
      unfold versionHandshake
      simp only [Option.getD]
      rw [if_pos hv]
    have hrun : runOps tgt forceEnsure
        (Operation.action name (some .once) spec :: rest) lock
        = .error (.typeError "once_actions") := by
      unfold runOps handleOp handleAction
      simp [hoa]
    simp only [hshake, hrun]
  · intro lock v tgt forceEnsure name cfg rest hv hes
    unfold deployModel
    have hshake : versionHandshake (Option.getD (some lock) emptyLock) v
        = (lock, []) := by
      unfold versionHandshake
      simp only [Option.getD]
      rw [if_pos hv]
    have hrun : runOps tgt forceEnsure
        (Operation.ensure name ⟨some cfg, none, none⟩ :: rest) lock
        = .error (.typeError "ensures") := by
      unfold runOps handleOp handleEnsure ensureSwap
      simp [hes]
    simp only [hshake, hrun]

/-- Witness for C8's amended theorem at a concrete manifest. -/
theorem C8_lock_tolerance_witness :
    (∃ tr lock2, deployModel none "1.0.0" ⟨none, fun _ => none⟩ false
      [.action "migrate" (some .once) ⟨none, some "./migrate.sh"⟩]
      = .ok (tr, lock2)) ∧
    deployModel (some ⟨some "1.0.0", some [], none⟩) "1.0.0"
      ⟨none, fun _ => none⟩ false
      [.action "migrate" (some .once) ⟨none, some "./migrate.sh"⟩]
      = .error (.typeError "once_actions") := by
  constructor
  · exact C8_lock_tolerance.1 "1.0.0" ⟨none, fun _ => none⟩ false
      [.action "migrate" (some .once) ⟨none, some "./migrate.sh"⟩]
  · exact C8_lock_tolerance.2.1 ⟨some "1.0.0", some [], none⟩ "1.0.0"
      ⟨none, fun _ => none⟩ false "migrate" ⟨none, some "./migrate.sh"⟩ []
      rfl rfl

/-- The lock entry `ensureSwap` writes for a given config. -/
def entryOfSwap (c : SwapConfig) : LockEntry := ⟨c.size, .swap c⟩

/-- The lock entry `ensureDocker` writes for a given config. -/
def entryOfDocker (c : DockerConfig) : LockEntry := ⟨c.version, .docker c⟩

/-- The lock entry `ensureDirectory` writes for a given config and target. -/
def entryOfDirectory (tgt : Target) (c : DirectoryConfig) : LockEntry :=
  ⟨interpolate (some c.path) tgt.ctx, .directory c⟩

/-- The (key, entry) pairs an operation's ensure handlers govern. -/
def subEnsures (tgt : Target) : Operation → List (String × LockEntry)
  | .ensure _ spec =>
      (match spec.swap with
        | some c => [("swap", entryOfSwap c)]
        | none => []) ++
      (match spec.docker with
        | some c => [("docker", entryOfDocker c)]
        | none => []) ++
      (match spec.directory with
        | some c => [("directory_" ++ c.path, entryOfDirectory tgt c)]
        | none => [])
  | _ => []

/-- All (key, entry) pairs of a manifest's ensure operations. -/
def allSub (tgt : Target) (ops : List Operation) :
    List (String × LockEntry) :=
  (ops.map (subEnsures tgt)).join

/-- Any two ensure declarations of the manifest that share a lock key agree
on the entry they install (in particular: no two ensures of the same kind
with different configs). -/
def EnsuresConsistent (tgt : Target) (ops : List Operation) : Prop :=
  ∀ p ∈ allSub tgt ops, ∀ q ∈ allSub tgt ops, p.1 = q.1 → p.2 = q.2

/-- The `once_actions` identifiers an operation records. -/
def onceIds : Operation → List String
  | .action name (some .once) _ => ["action_" ++ name]
  | _ => []

/-- Every entry stored in the ensure object agrees with every manifest
sub-ensure of its key. -/
def EnsGood (tgt : Target) (ops : List Operation)
    (es : List (String × LockEntry)) : Prop :=
  ∀ k e, lookupEnsure es k = some e →
    ∀ q ∈ allSub tgt ops, q.1 = k → q.2 = e

/-- Effects legitimate in a repeated run: anything except an install script,
an `→ Ensuring:` marker, or the execution of a `when: once` action. -/
def CleanEffect : DeployEffect → Prop
  | .runScript _ => False
  | .ensuring _ => False
  | .running _ w => w ≠ .once
  | _ => True

theorem lookupEnsure_isSome_of_any (es : List (String × LockEntry))
    (k : String) (h : (es.any fun p => p.1 = k) = true) :
    ∃ e, lookupEnsure es k = some e := by
  unfold lookupEnsure
  simp only [List.any_eq_true] at h
  obtain ⟨p, hp, hpk⟩ := h
  have : (es.find? fun p => p.1 = k).isSome := by
    rw [List.find?_isSome]
    exact ⟨p, hp, hpk⟩
  obtain ⟨q, hq⟩ := Option.isSome_iff_exists.1 this
  exact ⟨q.2, by rw [hq]; rfl⟩

theorem lookupEnsure_eq_none_of_not_any (es : List (String × LockEntry))
    (k : String) (h : (es.any fun p => p.1 = k) = false) :
    lookupEnsure es k = none := by
  unfold lookupEnsure
  rw [List.find?_eq_none.2]
  · rfl
  · intro p hp hpk
    have hm : (es.any fun p => p.1 = k) = true := by
      simp only [List.any_eq_true]
      exact ⟨p, hp, hpk⟩
    rw [hm] at h
    cases h

theorem lookup_map_update (es : List (String × LockEntry)) (k : String)
    (e : LockEntry) (q : String) :
    lookupEnsure (es.map fun p => if p.1 = k then (k, e) else p) q
      = if q = k then (lookupEnsure es k).map (fun _ => e)
        else lookupEnsure es q := by
  induction es with
  | nil => by_cases hq : q = k <;> simp [lookupEnsure, hq]
  | cons a es ih =>
      have hhd : (if a.1 = k then ((k, e) : String × LockEntry) else a).1
          = a.1 := by
        by_cases h : a.1 = k <;> simp [h]
      by_cases haq : a.1 = q
      · unfold lookupEnsure
        rw [List.map_cons,
          List.find?_cons_of_pos _ (by simp only [hhd]; simp [haq])]
        by_cases hqk : q = k
        · rw [if_pos hqk,
            List.find?_cons_of_pos _ (by simp [haq, hqk])]
          have hak : a.1 = k := haq ▸ hqk ▸ rfl
          simp [hak]
        · have hak : ¬a.1 = k := fun hak => hqk (haq ▸ hak ▸ rfl)
          rw [if_neg hqk, List.find?_cons_of_pos _ (by simp [haq])]
          simp [hak]
      · unfold lookupEnsure at ih ⊢
        rw [List.map_cons,
          List.find?_cons_of_neg _ (by simp only [hhd]; simp [haq])]
        by_cases hqk : q = k
        · rw [if_pos hqk] at ih ⊢
          have hak : ¬a.1 = k := fun hak => haq (hak ▸ hqk ▸ rfl)
          rw [List.find?_cons_of_neg _ (by simp [hak, hqk])]
          exact ih
        · rw [if_neg hqk] at ih ⊢
          rw [List.find?_cons_of_neg _ (by simp [haq])]
          exact ih

theorem lookup_append_single (es : List (String × LockEntry)) (k : String)
    (e : LockEntry) (q : String) :
    lookupEnsure (es ++ [(k, e)]) q
      = match lookupEnsure es q with
        | some e2 => some e2
        | none => if q = k then some e else none := by
  unfold lookupEnsure
  rw [List.find?_append]
  cases hf : es.find? fun p => p.1 = q with
  | some p => rfl
  | none =>
      by_cases hqk : q = k
      · subst hqk
        simp
      · rw [List.find?_cons_of_neg _ (by simpa using fun h => hqk h.symm)]
        simp [hqk]

/-- Full characterization of `upsertEnsure` through `lookupEnsure`. -/
theorem lookup_upsert (es : List (String × LockEntry)) (k : String)
    (e : LockEntry) (q : String) :
    lookupEnsure (upsertEnsure es k e) q
      = if q = k then some e else lookupEnsure es q := by
  unfold upsertEnsure
  by_cases hany : (es.any fun p => p.1 = k) = true
  · rw [if_pos hany, lookup_map_update]
    by_cases hqk : q = k
    · obtain ⟨e2, he2⟩ := lookupEnsure_isSome_of_any es k hany
      rw [if_pos hqk, if_pos hqk, he2]
      rfl
    · rw [if_neg hqk, if_neg hqk]
  · rw [if_neg hany, lookup_append_single]
    have hnone := lookupEnsure_eq_none_of_not_any es k
      (by rw [Bool.not_eq_true] at hany; exact hany)
    by_cases hqk : q = k
    · rw [if_pos hqk, hqk, hnone, if_pos rfl]
    · rw [if_neg hqk]
      cases hf : lookupEnsure es q with
      | some e2 => rw [if_neg hqk]
      | none => rw [if_neg hqk]


theorem ensureSwap_run1 (tgt : Target) (ops : List Operation)
    (hcons : EnsuresConsistent tgt ops) (name : String) (cfg : SwapConfig)
    (lock : ParsedLock) (es : List (String × LockEntry))
    (hes : lock.ensures = some es) (hg : EnsGood tgt ops es)
    (hmem : ("swap", entryOfSwap cfg) ∈ allSub tgt ops) :
    ∃ effs es2, ensureSwap tgt false name cfg lock
        = .ok (effs, { lock with ensures := some es2 })
      ∧ EnsGood tgt ops es2
      ∧ (∀ k e, lookupEnsure es k = some e → lookupEnsure es2 k = some e)
      ∧ lookupEnsure es2 "swap" = some (entryOfSwap cfg) := by
  unfold ensureSwap
  simp only [hes]
  split
  · refine ⟨_, upsertEnsure es "swap" ⟨cfg.size, .swap cfg⟩, rfl, ?_, ?_, ?_⟩
    · intro k e hlk q hq hqk
      rw [lookup_upsert] at hlk
      by_cases hk : k = "swap"
      · rw [if_pos hk] at hlk
        injection hlk with hlk
        have hq2 := hcons q hq ("swap", entryOfSwap cfg) hmem (hqk.trans hk)
        rw [hq2]
        exact hlk
      · rw [if_neg hk] at hlk
        exact hg k e hlk q hq hqk
    · intro k e hke
      rw [lookup_upsert]
      by_cases hk : k = "swap"
      · rw [if_pos hk]
        subst hk
        have he := hg _ e hke ("swap", entryOfSwap cfg) hmem rfl
        exact congrArg some he
      · rw [if_neg hk]
        exact hke
    · rw [lookup_upsert, if_pos rfl]
      rfl
  · next hcond =>
      cases hl : lookupEnsure es "swap" with
      | none =>
          rw [hl] at hcond
          simp at hcond
      | some e0 =>
          rw [hl] at hcond
          simp at hcond
          obtain ⟨hv, hc⟩ := hcond
          have he0 : e0 = entryOfSwap cfg := by
            obtain ⟨ver, c⟩ := e0
            exact congrArg₂ LockEntry.mk hv hc
          refine ⟨[], es, ?_, hg, fun k e h => h, by rw [hl, he0]⟩
          have heta : ({ lock with ensures := some es } : ParsedLock)
              = lock := by
            rw [← hes]
          rw [heta]

theorem ensureDocker_run1 (tgt : Target) (ops : List Operation)
    (hcons : EnsuresConsistent tgt ops) (name : String) (cfg : DockerConfig)
    (lock : ParsedLock) (es : List (String × LockEntry))
    (hes : lock.ensures = some es) (hg : EnsGood tgt ops es)
    (hmem : ("docker", entryOfDocker cfg) ∈ allSub tgt ops) :
    ∃ effs es2, ensureDocker tgt false name cfg lock
        = .ok (effs, { lock with ensures := some es2 })
      ∧ EnsGood tgt ops es2
      ∧ (∀ k e, lookupEnsure es k = some e → lookupEnsure es2 k = some e)
      ∧ lookupEnsure es2 "docker" = some (entryOfDocker cfg) := by
  unfold ensureDocker
  simp only [hes]
  split
  · refine ⟨_, upsertEnsure es "docker" ⟨cfg.version, .docker cfg⟩,
      rfl, ?_, ?_, ?_⟩
    · intro k e hlk q hq hqk
      rw [lookup_upsert] at hlk
      by_cases hk : k = "docker"
      · rw [if_pos hk] at hlk
        injection hlk with hlk
        have hq2 := hcons q hq ("docker", entryOfDocker cfg) hmem
          (hqk.trans hk)
        rw [hq2]
        exact hlk
      · rw [if_neg hk] at hlk
        exact hg k e hlk q hq hqk
    · intro k e hke
      rw [lookup_upsert]
      by_cases hk : k = "docker"
      · rw [if_pos hk]
        subst hk
        have he := hg _ e hke ("docker", entryOfDocker cfg) hmem rfl
        exact congrArg some he
      · rw [if_neg hk]
        exact hke
    · rw [lookup_upsert, if_pos rfl]
      rfl
  · next hcond =>
      cases hl : lookupEnsure es "docker" with
      | none =>
          rw [hl] at hcond
          simp at hcond
      | some e0 =>
          rw [hl] at hcond
          simp at hcond
          obtain ⟨hv, hc⟩ := hcond
          have he0 : e0 = entryOfDocker cfg := by
            obtain ⟨ver, c⟩ := e0
            exact congrArg₂ LockEntry.mk hv hc
          refine ⟨[], es, ?_, hg, fun k e h => h, by rw [hl, he0]⟩
          have heta : ({ lock with ensures := some es } : ParsedLock)
              = lock := by
            rw [← hes]
          rw [heta]

theorem ensureDirectory_run1 (tgt : Target) (ops : List Operation)
    (hcons : EnsuresConsistent tgt ops) (name : String)
    (cfg : DirectoryConfig) (lock : ParsedLock)
    (es : List (String × LockEntry))
    (hes : lock.ensures = some es) (hg : EnsGood tgt ops es)
    (hmem : ("directory_" ++ cfg.path, entryOfDirectory tgt cfg)
      ∈ allSub tgt ops) :
    ∃ effs es2, ensureDirectory tgt false name cfg lock
        = .ok (effs, { lock with ensures := some es2 })
      ∧ EnsGood tgt ops es2
      ∧ (∀ k e, lookupEnsure es k = some e → lookupEnsure es2 k = some e)
      ∧ lookupEnsure es2 ("directory_" ++ cfg.path)
          = some (entryOfDirectory tgt cfg) := by
  unfold ensureDirectory
  simp only [hes]
  split
  · refine ⟨_, upsertEnsure es ("directory_" ++ cfg.path)
      ⟨interpolate (some cfg.path) tgt.ctx, .directory cfg⟩, rfl, ?_, ?_, ?_⟩
    · intro k e hlk q hq hqk
      rw [lookup_upsert] at hlk
      by_cases hk : k = "directory_" ++ cfg.path
      · rw [if_pos hk] at hlk
        injection hlk with hlk
        have hq2 := hcons q hq
          ("directory_" ++ cfg.path, entryOfDirectory tgt cfg) hmem
          (hqk.trans hk)
        rw [hq2]
        exact hlk
      · rw [if_neg hk] at hlk
        exact hg k e hlk q hq hqk
    · intro k e hke
      rw [lookup_upsert]
      by_cases hk : k = "directory_" ++ cfg.path
      · rw [if_pos hk]
        subst hk
        have he := hg _ e hke
          ("directory_" ++ cfg.path, entryOfDirectory tgt cfg) hmem rfl
        exact congrArg some he
      · rw [if_neg hk]
        exact hke
    · rw [lookup_upsert, if_pos rfl]
      rfl
  · next hcond =>
      cases hl : lookupEnsure es ("directory_" ++ cfg.path) with
      | none =>
          rw [hl] at hcond
          simp at hcond
      | some e0 =>
          have he0 : entryOfDirectory tgt cfg = e0 :=
            hg _ e0 hl ("directory_" ++ cfg.path, entryOfDirectory tgt cfg)
              hmem rfl
          refine ⟨[], es, ?_, hg, fun k e h => h, by rw [hl, ← he0]⟩
          have heta : ({ lock with ensures := some es } : ParsedLock)
              = lock := by
            rw [← hes]
          rw [heta]


theorem handleEnsure_run1 (tgt : Target) (ops : List Operation)
    (hcons : EnsuresConsistent tgt ops) (name : String) (spec : EnsureSpec)
    (lock : ParsedLock) (es : List (String × LockEntry))
    (hes : lock.ensures = some es) (hg : EnsGood tgt ops es)
    (hsub : ∀ p ∈ subEnsures tgt (.ensure name spec), p ∈ allSub tgt ops) :
    ∃ effs es2, handleEnsure tgt false name spec lock
        = .ok (effs, { lock with ensures := some es2 })
      ∧ EnsGood tgt ops es2
      ∧ (∀ k e, lookupEnsure es k = some e → lookupEnsure es2 k = some e)
      ∧ (∀ p ∈ subEnsures tgt (.ensure name spec),
          lookupEnsure es2 p.1 = some p.2) := by
  have step1 : ∀ (lk : ParsedLock) (es0 : List (String × LockEntry)),
      lk.ensures = some es0 → EnsGood tgt ops es0 →
      ∃ effs es1, (match spec.swap with
          | some cfg => ensureSwap tgt false name cfg lk
          | none => Except.ok ([], lk))
          = .ok (effs, { lk with ensures := some es1 })
        ∧ EnsGood tgt ops es1
        ∧ (∀ k e, lookupEnsure es0 k = some e → lookupEnsure es1 k = some e)
        ∧ (∀ cfg, spec.swap = some cfg →
            lookupEnsure es1 "swap" = some (entryOfSwap cfg)) := by
    intro lk es0 hlk hg0
    cases hsw : spec.swap with
    | none =>
        refine ⟨[], es0, ?_, hg0, fun k e h => h, ?_⟩
        · have heta : ({ lk with ensures := some es0 } : ParsedLock)
              = lk := by
            rw [← hlk]
          rw [heta]
        · intro cfg hc
          exact Option.noConfusion hc
    | some cfg =>
        obtain ⟨effs, es1, heq, hg1, hpres, hkey⟩ :=
          ensureSwap_run1 tgt ops hcons name cfg lk es0 hlk hg0
            (hsub ("swap", entryOfSwap cfg) (by simp [subEnsures, hsw]))
        refine ⟨effs, es1, heq, hg1, hpres, ?_⟩
        intro cfg2 hc
        injection hc with hc
        subst hc
        exact hkey
  have step2 : ∀ (lk : ParsedLock) (es0 : List (String × LockEntry)),
      lk.ensures = some es0 → EnsGood tgt ops es0 →
      ∃ effs es1, (match spec.docker with
          | some cfg => ensureDocker tgt false name cfg lk
          | none => Except.ok ([], lk))
          = .ok (effs, { lk with ensures := some es1 })
        ∧ EnsGood tgt ops es1
        ∧ (∀ k e, lookupEnsure es0 k = some e → lookupEnsure es1 k = some e)
        ∧ (∀ cfg, spec.docker = some cfg →
            lookupEnsure es1 "docker" = some (entryOfDocker cfg)) := by
    intro lk es0 hlk hg0
    cases hdk : spec.docker with
    | none =>
        refine ⟨[], es0, ?_, hg0, fun k e h => h, ?_⟩
        · have heta : ({ lk with ensures := some es0 } : ParsedLock)
              = lk := by
            rw [← hlk]
          rw [heta]
        · intro cfg hc
          exact Option.noConfusion hc
    | some cfg =>
        obtain ⟨effs, es1, heq, hg1, hpres, hkey⟩ :=
          ensureDocker_run1 tgt ops hcons name cfg lk es0 hlk hg0
            (hsub ("docker", entryOfDocker cfg) (by simp [subEnsures, hdk]))
        refine ⟨effs, es1, heq, hg1, hpres, ?_⟩
        intro cfg2 hc
        injection hc with hc
        subst hc
        exact hkey
  have step3 : ∀ (lk : ParsedLock) (es0 : List (String × LockEntry)),
      lk.ensures = some es0 → EnsGood tgt ops es0 →
      ∃ effs es1, (match spec.directory with
          | some cfg => ensureDirectory tgt false name cfg lk
          | none => Except.ok ([], lk))
          = .ok (effs, { lk with ensures := some es1 })
        ∧ EnsGood tgt ops es1
        ∧ (∀ k e, lookupEnsure es0 k = some e → lookupEnsure es1 k = some e)
        ∧ (∀ cfg, spec.directory = some cfg →
            lookupEnsure es1 ("directory_" ++ cfg.path)
              = some (entryOfDirectory tgt cfg)) := by
    intro lk es0 hlk hg0
    cases hdr : spec.directory with
    | none =>
        refine ⟨[], es0, ?_, hg0, fun k e h => h, ?_⟩
        · have heta : ({ lk with ensures := some es0 } : ParsedLock)
              = lk := by
            rw [← hlk]
          rw [heta]
        · intro cfg hc
          exact Option.noConfusion hc
    | some cfg =>
        obtain ⟨effs, es1, heq, hg1, hpres, hkey⟩ :=
          ensureDirectory_run1 tgt ops hcons name cfg lk es0 hlk hg0
            (hsub ("directory_" ++ cfg.path, entryOfDirectory tgt cfg)
              (by simp [subEnsures, hdr]))
        refine ⟨effs, es1, heq, hg1, hpres, ?_⟩
        intro cfg2 hc
        injection hc with hc
        subst hc
        exact hkey
  obtain ⟨e1, es1, heq1, hg1, hp1, hk1⟩ := step1 lock es hes hg
  obtain ⟨e2, es2, heq2, hg2, hp2, hk2⟩ :=
    step2 { lock with ensures := some es1 } es1 rfl hg1
  obtain ⟨e3, es3, heq3, hg3, hp3, hk3⟩ :=
    step3 { lock with ensures := some es2 } es2 rfl hg2
  refine ⟨e1 ++ e2 ++ e3, es3, ?_, hg3,
    fun k e h => hp3 k e (hp2 k e (hp1 k e h)), ?_⟩
  · unfold handleEnsure
    simp only [heq1, heq2, heq3]
  · intro p hp
    simp only [subEnsures] at hp
    rcases List.mem_append.1 hp with hp12 | hp3m
    · rcases List.mem_append.1 hp12 with hp1m | hp2m
      · cases hsw : spec.swap with
        | none => simp only [hsw] at hp1m; exact absurd hp1m (List.not_mem_nil p)
        | some cfg =>
            simp only [hsw] at hp1m
            rw [List.mem_singleton] at hp1m
            subst hp1m
            exact hp3 _ _ (hp2 _ _ (hk1 cfg hsw))
      · cases hdk : spec.docker with
        | none => simp only [hdk] at hp2m; exact absurd hp2m (List.not_mem_nil p)
        | some cfg =>
            simp only [hdk] at hp2m
            rw [List.mem_singleton] at hp2m
            subst hp2m
            exact hp3 _ _ (hk2 cfg hdk)
    · cases hdr : spec.directory with
      | none => simp only [hdr] at hp3m; exact absurd hp3m (List.not_mem_nil p)
      | some cfg =>
          simp only [hdr] at hp3m
          rw [List.mem_singleton] at hp3m
          subst hp3m
          exact hk3 cfg hdr

theorem handleAction_run1 (tgt : Target) (name : String) (w : Option When)
    (spec : ActionSpec) (lock : ParsedLock) (la : List String)
    (hla : lock.once_actions = some la) :
    ∃ effs la', handleAction tgt name w spec lock
        = .ok (effs, { lock with once_actions := some la' })
      ∧ (∀ id ∈ la, id ∈ la')
      ∧ (∀ id ∈ onceIds (.action name w spec), id ∈ la') := by
  have heta : ({ lock with once_actions := some la } : ParsedLock)
      = lock := by
    rw [← hla]
  match w with
  | none =>
      refine ⟨actionBodyEffects tgt name .always spec, la, ?_,
        fun id h => h, ?_⟩
      · rw [show handleAction tgt name none spec lock
            = .ok (actionBodyEffects tgt name .always spec, lock) from rfl,
          heta]
      · intro id h
        simp [onceIds] at h
  | some .never =>
      refine ⟨[], la, ?_, fun id h => h, ?_⟩
      · rw [show handleAction tgt name (some .never) spec lock
            = .ok ([], lock) from rfl, heta]
      · intro id h
        simp [onceIds] at h
  | some .always =>
      refine ⟨actionBodyEffects tgt name .always spec, la, ?_,
        fun id h => h, ?_⟩
      · rw [show handleAction tgt name (some .always) spec lock
            = .ok (actionBodyEffects tgt name .always spec, lock) from rfl,
          heta]
      · intro id h
        simp [onceIds] at h
  | some .once =>
      have hval : handleAction tgt name (some .once) spec lock
          = (match lock.once_actions with
             | none => Except.error (DeployError.typeError "once_actions")
             | some la2 =>
                if ("action_" ++ name) ∈ la2 then Except.ok ([], lock)
                else Except.ok
                  (actionBodyEffects tgt name .once spec ++
                    [DeployEffect.uploadLock
                      { lock with
                          once_actions := some (la2 ++ ["action_" ++ name]) }],
                   { lock with
                       once_actions := some (la2 ++ ["action_" ++ name]) })) :=
        rfl
      by_cases hin : ("action_" ++ name) ∈ la
      · refine ⟨[], la, ?_, fun id h => h, ?_⟩
        · rw [hval]
          simp only [hla]
          rw [if_pos hin, heta]
        · intro id h
          simp only [onceIds, List.mem_singleton] at h
          subst h
          exact hin
      · refine ⟨actionBodyEffects tgt name .once spec ++
            [DeployEffect.uploadLock
              { lock with once_actions := some (la ++ ["action_" ++ name]) }],
          la ++ ["action_" ++ name], ?_,
          fun id h => List.mem_append_left _ h, ?_⟩
        · rw [hval]
          simp only [hla]
          rw [if_neg hin]
        · intro id h
          simp only [onceIds, List.mem_singleton] at h
          subst h
          exact List.mem_append_right _ (by simp)


theorem allSub_cons (tgt : Target) (op : Operation) (rest : List Operation) :
    allSub tgt (op :: rest) = subEnsures tgt op ++ allSub tgt rest := by
  simp [allSub]

theorem handleOp_run1 (tgt : Target) (ops : List Operation)
    (hcons : EnsuresConsistent tgt ops) (op : Operation) (lock : ParsedLock)
    (es : List (String × LockEntry)) (la : List String)
    (hes : lock.ensures = some es) (hla : lock.once_actions = some la)
    (hg : EnsGood tgt ops es)
    (hsub : ∀ p ∈ subEnsures tgt op, p ∈ allSub tgt ops) :
    ∃ effs es2 la2, handleOp tgt false op lock
        = .ok (effs,
            { lock with ensures := some es2, once_actions := some la2 })
      ∧ EnsGood tgt ops es2
      ∧ (∀ k e, lookupEnsure es k = some e → lookupEnsure es2 k = some e)
      ∧ (∀ p ∈ subEnsures tgt op, lookupEnsure es2 p.1 = some p.2)
      ∧ (∀ id ∈ la, id ∈ la2)
      ∧ (∀ id ∈ onceIds op, id ∈ la2) := by
  cases op with
  | ensure name spec =>
      obtain ⟨effs, es2, heq, hg2, hpres, hinst⟩ :=
        handleEnsure_run1 tgt ops hcons name spec lock es hes hg hsub
      refine ⟨effs, es2, la, ?_, hg2, hpres, hinst, fun id h => h, ?_⟩
      · rw [show handleOp tgt false (.ensure name spec) lock
            = handleEnsure tgt false name spec lock from rfl, heq]
        have : ({ lock with ensures := some es2, once_actions := some la }
            : ParsedLock) = { lock with ensures := some es2 } := by
          rw [← hla]
        rw [this]
      · intro id h
        simp [onceIds] at h
  | action name w spec =>
      obtain ⟨effs, la2, heq, hpres, honce⟩ :=
        handleAction_run1 tgt name w spec lock la hla
      refine ⟨effs, es, la2, ?_, hg, fun k e h => h, ?_, hpres, honce⟩
      · rw [show handleOp tgt false (.action name w spec) lock
            = handleAction tgt name w spec lock from rfl, heq]
        have : ({ lock with ensures := some es, once_actions := some la2 }
            : ParsedLock) = { lock with once_actions := some la2 } := by
          rw [← hes]
        rw [this]
      · intro p hp
        simp [subEnsures] at hp
  | verify name spec =>
      refine ⟨(match spec.http with
          | some h =>
              [DeployEffect.runCommand
                ("curl -f --max-time " ++ h.timeout.getD "30s" ++ " " ++
                  interpolate (some h.url) tgt.ctx) true]
          | none => []) ++
        (match spec.command with
          | some c =>
              [DeployEffect.runCommand (interpolate (some c) tgt.ctx) true]
          | none => []), es, la, ?_, hg, fun k e h => h, ?_,
        fun id h => h, ?_⟩
      · rw [show handleOp tgt false (.verify name spec) lock
            = handleVerify tgt name spec lock from rfl]
        rw [show handleVerify tgt name spec lock
            = .ok ((match spec.http with
                | some h =>
                    [DeployEffect.runCommand
                      ("curl -f --max-time " ++ h.timeout.getD "30s" ++ " " ++
                        interpolate (some h.url) tgt.ctx) true]
                | none => []) ++
              (match spec.command with
                | some c =>
                    [DeployEffect.runCommand
                      (interpolate (some c) tgt.ctx) true]
                | none => []), lock) from rfl]
        have : ({ lock with ensures := some es, once_actions := some la }
            : ParsedLock) = lock := by
          rw [← hes, ← hla]
        rw [this]
      · intro p hp
        simp [subEnsures] at hp
      · intro id h
        simp [onceIds] at h

theorem runOps_run1 (tgt : Target) (ops : List Operation)
    (hcons : EnsuresConsistent tgt ops) :
    ∀ (ops2 : List Operation) (lock : ParsedLock)
      (es : List (String × LockEntry)) (la : List String),
    lock.ensures = some es → lock.once_actions = some la →
    EnsGood tgt ops es →
    (∀ p ∈ allSub tgt ops2, p ∈ allSub tgt ops) →
    ∃ tr es2 la2, runOps tgt false ops2 lock
        = .ok (tr, { lock with ensures := some es2, once_actions := some la2 })
      ∧ EnsGood tgt ops es2
      ∧ (∀ k e, lookupEnsure es k = some e → lookupEnsure es2 k = some e)
      ∧ (∀ p ∈ allSub tgt ops2, lookupEnsure es2 p.1 = some p.2)
      ∧ (∀ id ∈ la, id ∈ la2)
      ∧ (∀ op ∈ ops2, ∀ id ∈ onceIds op, id ∈ la2) := by
  intro ops2
  induction ops2 with
  | nil =>
      intro lock es la hes hla hg hall
      refine ⟨[], es, la, ?_, hg, fun k e h => h, ?_, fun id h => h, ?_⟩
      · have : ({ lock with ensures := some es, once_actions := some la }
            : ParsedLock) = lock := by
          rw [← hes, ← hla]
        rw [this]
        rfl
      · intro p hp
        simp [allSub] at hp
      · intro op h
        exact absurd h (List.not_mem_nil op)
  | cons op rest ih =>
      intro lock es la hes hla hg hall
      have hsubop : ∀ p ∈ subEnsures tgt op, p ∈ allSub tgt ops := by
        intro p hp
        exact hall p (by rw [allSub_cons]; exact List.mem_append_left _ hp)
      obtain ⟨effs, es1, la1, heq1, hg1, hpres1, hinst1, hlp1, honce1⟩ :=
        handleOp_run1 tgt ops hcons op lock es la hes hla hg hsubop
      obtain ⟨tr, es2, la2, heq2, hg2, hpres2, hinst2, hlp2, honce2⟩ :=
        ih { lock with ensures := some es1, once_actions := some la1 }
          es1 la1 rfl rfl hg1
          (fun p hp => hall p
            (by rw [allSub_cons]; exact List.mem_append_right _ hp))
      refine ⟨effs ++ tr, es2, la2, ?_, hg2,
        fun k e h => hpres2 k e (hpres1 k e h), ?_, ?_, ?_⟩
      · rw [show runOps tgt false (op :: rest) lock
            = (match handleOp tgt false op lock with
               | .error e => .error e
               | .ok (effs, lock2) =>
                   match runOps tgt false rest lock2 with
                   | .error e => Except.error e
                   | .ok (effs2, lock3) => Except.ok (effs ++ effs2, lock3))
            from rfl]
        simp only [heq1, heq2]
      · intro p hp
        rw [allSub_cons] at hp
        rcases List.mem_append.1 hp with h | h
        · exact hpres2 _ _ (hinst1 p h)
        · exact hinst2 p h
      · intro id h
        exact hlp2 id (hlp1 id h)
      · intro op2 hop2 id hid
        rcases List.mem_cons.1 hop2 with h | h
        · subst h
          exact hlp2 id (honce1 id hid)
        · exact honce2 op2 h id hid


theorem ensureSwap_run2 (tgt : Target) (name : String) (cfg : SwapConfig)
    (lock : ParsedLock) (es : List (String × LockEntry))
    (hes : lock.ensures = some es)
    (hl : lookupEnsure es "swap" = some (entryOfSwap cfg)) :
    ensureSwap tgt false name cfg lock = .ok ([], lock) := by
  unfold ensureSwap
  simp only [hes, hl]
  simp [entryOfSwap]

theorem ensureDocker_run2 (tgt : Target) (name : String) (cfg : DockerConfig)
    (lock : ParsedLock) (es : List (String × LockEntry))
    (hes : lock.ensures = some es)
    (hl : lookupEnsure es "docker" = some (entryOfDocker cfg)) :
    ensureDocker tgt false name cfg lock = .ok ([], lock) := by
  unfold ensureDocker
  simp only [hes, hl]
  simp [entryOfDocker]

theorem ensureDirectory_run2 (tgt : Target) (name : String)
    (cfg : DirectoryConfig) (lock : ParsedLock)
    (es : List (String × LockEntry)) (hes : lock.ensures = some es)
    (hl : lookupEnsure es ("directory_" ++ cfg.path)
      = some (entryOfDirectory tgt cfg)) :
    ensureDirectory tgt false name cfg lock = .ok ([], lock) := by
  unfold ensureDirectory
  simp only [hes, hl]
  simp [entryOfDirectory]

theorem handleEnsure_run2 (tgt : Target) (name : String) (spec : EnsureSpec)
    (lock : ParsedLock) (es : List (String × LockEntry))
    (hes : lock.ensures = some es)
    (hinst : ∀ p ∈ subEnsures tgt (.ensure name spec),
      lookupEnsure es p.1 = some p.2) :
    handleEnsure tgt false name spec lock = .ok ([], lock) := by
  have h1 : (match spec.swap with
      | some cfg => ensureSwap tgt false name cfg lock
      | none => Except.ok ([], lock)) = .ok ([], lock) := by
    cases hsw : spec.swap with
    | none => rfl
    | some cfg =>
        exact ensureSwap_run2 tgt name cfg lock es hes
          (hinst ("swap", entryOfSwap cfg) (by simp [subEnsures, hsw]))
  have h2 : (match spec.docker with
      | some cfg => ensureDocker tgt false name cfg lock
      | none => Except.ok ([], lock)) = .ok ([], lock) := by
    cases hdk : spec.docker with
    | none => rfl
    | some cfg =>
        exact ensureDocker_run2 tgt name cfg lock es hes
          (hinst ("docker", entryOfDocker cfg) (by simp [subEnsures, hdk]))
  have h3 : (match spec.directory with
      | some cfg => ensureDirectory tgt false name cfg lock
      | none => Except.ok ([], lock)) = .ok ([], lock) := by
    cases hdr : spec.directory with
    | none => rfl
    | some cfg =>
        exact ensureDirectory_run2 tgt name cfg lock es hes
          (hinst ("directory_" ++ cfg.path, entryOfDirectory tgt cfg)
            (by simp [subEnsures, hdr]))
  unfold handleEnsure
  simp only [h1, h2, h3]
  rfl

theorem clean_actionBody (tgt : Target) (name : String) (w : When)
    (spec : ActionSpec) (hw : w ≠ .once) :
    ∀ e ∈ actionBodyEffects tgt name w spec, CleanEffect e := by
  intro e he
  unfold actionBodyEffects at he
  rcases List.mem_append.1 he with h | h
  · rcases List.mem_append.1 h with h2 | h2
    · rw [List.mem_singleton] at h2
      subst h2
      exact hw
    · cases hr : spec.rsync with
      | none => simp only [hr] at h2; exact absurd h2 (List.not_mem_nil e)
      | some r =>
          simp only [hr] at h2
          rw [List.mem_singleton] at h2
          subst h2
          trivial
  · cases hc : spec.command with
    | none => simp only [hc] at h; exact absurd h (List.not_mem_nil e)
    | some c =>
        simp only [hc] at h
        rw [List.mem_singleton] at h
        subst h
        trivial

theorem handleAction_run2 (tgt : Target) (name : String) (w : Option When)
    (spec : ActionSpec) (lock : ParsedLock) (la : List String)
    (hla : lock.once_actions = some la)
    (honce : ∀ id ∈ onceIds (.action name w spec), id ∈ la) :
    ∃ effs, handleAction tgt name w spec lock = .ok (effs, lock)
      ∧ ∀ e ∈ effs, CleanEffect e := by
  match w with
  | none =>
      exact ⟨actionBodyEffects tgt name .always spec, rfl,
        clean_actionBody tgt name .always spec (by decide)⟩
  | some .never =>
      exact ⟨[], rfl, fun e he => absurd he (List.not_mem_nil e)⟩
  | some .always =>
      exact ⟨actionBodyEffects tgt name .always spec, rfl,
        clean_actionBody tgt name .always spec (by decide)⟩
  | some .once =>
      have hin : ("action_" ++ name) ∈ la :=
        honce _ (by simp [onceIds])
      have hval : handleAction tgt name (some .once) spec lock
          = (match lock.once_actions with
             | none => Except.error (DeployError.typeError "once_actions")
             | some la2 =>
                if ("action_" ++ name) ∈ la2 then Except.ok ([], lock)
                else Except.ok
                  (actionBodyEffects tgt name .once spec ++
                    [DeployEffect.uploadLock
                      { lock with
                          once_actions := some (la2 ++ ["action_" ++ name]) }],
                   { lock with
                       once_actions := some (la2 ++ ["action_" ++ name]) })) :=
        rfl
      refine ⟨[], ?_, fun e he => absurd he (List.not_mem_nil e)⟩
      rw [hval]
      simp only [hla]
      rw [if_pos hin]

theorem handleVerify_run2 (tgt : Target) (name : String) (spec : VerifySpec)
    (lock : ParsedLock) :
    ∃ effs, handleVerify tgt name spec lock = .ok (effs, lock)
      ∧ ∀ e ∈ effs, CleanEffect e := by
  have heq : handleVerify tgt name spec lock
      = .ok ((match spec.http with
          | some h =>
              [DeployEffect.runCommand
                ("curl -f --max-time " ++ h.timeout.getD "30s" ++ " " ++
                  interpolate (some h.url) tgt.ctx) true]
          | none => []) ++
        (match spec.command with
          | some c =>
              [DeployEffect.runCommand (interpolate (some c) tgt.ctx) true]
          | none => []), lock) := rfl
  refine ⟨_, heq, ?_⟩
  intro e he
  rcases List.mem_append.1 he with h | h
  · cases hh : spec.http with
    | none => simp only [hh] at h; exact absurd h (List.not_mem_nil e)
    | some hs =>
        simp only [hh] at h
        rw [List.mem_singleton] at h
        subst h
        trivial
  · cases hc : spec.command with
    | none => simp only [hc] at h; exact absurd h (List.not_mem_nil e)
    | some c =>
        simp only [hc] at h
        rw [List.mem_singleton] at h
        subst h
        trivial

theorem runOps_run2 (tgt : Target) :
    ∀ (ops2 : List Operation) (lock : ParsedLock)
      (es : List (String × LockEntry)) (la : List String),
    lock.ensures = some es → lock.once_actions = some la →
    (∀ p ∈ allSub tgt ops2, lookupEnsure es p.1 = some p.2) →
    (∀ op ∈ ops2, ∀ id ∈ onceIds op, id ∈ la) →
    ∃ tr, runOps tgt false ops2 lock = .ok (tr, lock)
      ∧ ∀ e ∈ tr, CleanEffect e := by
  intro ops2
  induction ops2 with
  | nil =>
      intro lock es la hes hla hinst honce
      exact ⟨[], rfl, fun e he => absurd he (List.not_mem_nil e)⟩
  | cons op rest ih =>
      intro lock es la hes hla hinst honce
      have hinstop : ∀ p ∈ subEnsures tgt op, lookupEnsure es p.1 = some p.2 :=
        fun p hp => hinst p
          (by rw [allSub_cons]; exact List.mem_append_left _ hp)
      have hinstrest : ∀ p ∈ allSub tgt rest,
          lookupEnsure es p.1 = some p.2 :=
        fun p hp => hinst p
          (by rw [allSub_cons]; exact List.mem_append_right _ hp)
      have honcerest : ∀ op2 ∈ rest, ∀ id ∈ onceIds op2, id ∈ la :=
        fun op2 h => honce op2 (List.mem_cons_of_mem _ h)
      obtain ⟨tr, heqr, hclr⟩ := ih lock es la hes hla hinstrest honcerest
      have hop : ∃ effs, handleOp tgt false op lock = .ok (effs, lock)
          ∧ ∀ e ∈ effs, CleanEffect e := by
        cases op with
        | ensure name spec =>
            exact ⟨[], handleEnsure_run2 tgt name spec lock es hes hinstop,
              fun e he => absurd he (List.not_mem_nil e)⟩
        | action name w spec =>
            exact handleAction_run2 tgt name w spec lock la hla
              (honce _ (List.mem_cons_self _ _))
        | verify name spec =>
            exact handleVerify_run2 tgt name spec lock
      obtain ⟨effs, heqo, hclo⟩ := hop
      refine ⟨effs ++ tr, ?_, ?_⟩
      · rw [show runOps tgt false (op :: rest) lock
            = (match handleOp tgt false op lock with
               | .error e => .error e
               | .ok (effs, lock2) =>
                   match runOps tgt false rest lock2 with
                   | .error e => Except.error e
                   | .ok (effs2, lock3) => Except.ok (effs ++ effs2, lock3))
            from rfl]
        simp only [heqo, heqr]
      · intro e he
        rcases List.mem_append.1 he with h | h
        · exact hclo e h
        · exact hclr e h


/-- C3 counterexample to the claim as stated: with two ensure operations
that address the same lock key (`swap`) with different configs, the second
run re-executes the swap install script — the trace of the second deploy
contains a `runScript "swap"` effect, so the first run's state changes are
not performed exactly once. -/
theorem C3_counterexample :
    ∃ tr1 L1 tr2 L2,
      deployModel none "1.0.0" ⟨none, fun _ => none⟩ false
        [.ensure "s1" ⟨some ⟨"2G"⟩, none, none⟩,
         .ensure "s2" ⟨some ⟨"4G"⟩, none, none⟩]
        = .ok (tr1, L1) ∧
      deployModel (some L1) "1.0.0" ⟨none, fun _ => none⟩ false
        [.ensure "s1" ⟨some ⟨"2G"⟩, none, none⟩,
         .ensure "s2" ⟨some ⟨"4G"⟩, none, none⟩]
        = .ok (tr2, L2) ∧
      DeployEffect.runScript "swap" ∈ tr2 := by
  refine ⟨_, _, _, _, rfl, rfl, ?_⟩
  decide

/-- C3, amended: deploy is idempotent for manifests whose ensure
declarations are consistent — no two ensures sharing a lock key install
different entries.  For such a manifest, a first run from a missing lock
file succeeds, and a second run reading the lock written by the first
succeeds, leaves the lock unchanged, and emits no install script, no
`→ Ensuring:` marker and no `when: once` action body: every second-run
effect is clean.  (Without consistency the property fails, see the
counterexample.) -/
theorem C3_amended (v : String) (tgt : Target) (ops : List Operation)
    (hcons : EnsuresConsistent tgt ops) :
    ∃ tr1 L1 tr2,
      deployModel none v tgt false ops = .ok (tr1, L1) ∧
      deployModel (some L1) v tgt false ops = .ok (tr2, L1) ∧
      ∀ e ∈ tr2, CleanEffect e := by
  have hshake1 : versionHandshake emptyLock v
      = (⟨some v, some [], some []⟩,
         [DeployEffect.uploadLock ⟨some v, some [], some []⟩]) := by
    unfold versionHandshake emptyLock
    rw [if_neg (by simp)]
  have hg0 : EnsGood tgt ops [] := by
    intro k e h q hq hqk
    simp [lookupEnsure] at h
  obtain ⟨tr, es1, la1, heq1, hg1, hpres1, hinst1, hlp1, honce1⟩ :=
    runOps_run1 tgt ops hcons ops ⟨some v, some [], some []⟩ [] [] rfl rfl
      hg0 (fun p hp => hp)
  have hdep1 : deployModel none v tgt false ops
      = .ok (DeployEffect.uploadLock ⟨some v, some [], some []⟩ :: tr,
             ⟨some v, some es1, some la1⟩) := by
    unfold deployModel
    simp only [Option.getD_none, hshake1, heq1]
    rfl
  have hshake2 : versionHandshake ⟨some v, some es1, some la1⟩ v
      = (⟨some v, some es1, some la1⟩, []) := by
    unfold versionHandshake
    rw [if_pos rfl]
  obtain ⟨tr2, heq2, hcl2⟩ := runOps_run2 tgt ops
    ⟨some v, some es1, some la1⟩ es1 la1 rfl rfl hinst1 honce1
  have hdep2 : deployModel (some ⟨some v, some es1, some la1⟩) v tgt false
      ops = .ok (tr2, ⟨some v, some es1, some la1⟩) := by
    unfold deployModel
    simp only [Option.getD_some, hshake2, heq2]
    rfl
  exact ⟨_, _, tr2, hdep1, hdep2, hcl2⟩

/-- Witness for C3's amended theorem at a concrete consistent manifest: one
swap ensure and one `when: once` action. -/
theorem C3_amended_witness :
    ∃ tr1 L1 tr2,
      deployModel none "1.0.0" ⟨none, fun _ => none⟩ false
        [.ensure "base" ⟨some ⟨"2G"⟩, none, none⟩,
         .action "migrate" (some .once) ⟨none, some "./migrate.sh"⟩]
        = .ok (tr1, L1) ∧
      deployModel (some L1) "1.0.0" ⟨none, fun _ => none⟩ false
        [.ensure "base" ⟨some ⟨"2G"⟩, none, none⟩,
         .action "migrate" (some .once) ⟨none, some "./migrate.sh"⟩]
        = .ok (tr2, L1) ∧
      ∀ e ∈ tr2, CleanEffect e :=
  C3_amended "1.0.0" ⟨none, fun _ => none⟩
    [.ensure "base" ⟨some ⟨"2G"⟩, none, none⟩,
     .action "migrate" (some .once) ⟨none, some "./migrate.sh"⟩]
    (by unfold EnsuresConsistent; decide)


/-- A TypeScript import declaration as `resolveImportFullPath` scans it: the
optional default-import name, the named-import identifiers, the optional
namespace-import name, and the module specifier string. -/
structure ImportDeclM where
  defaultName : Option String
  named : List String
  namespaceName : Option String
  specifier : String

/-- One `forEachChild` callback body of `resolveImportFullPath` (part_004
lines 186–210): the declaration binds the symbol when its default import is
the symbol, one of its named imports is the symbol, or it is a
namespace import `ns` and the symbol starts with `ns ++ "."`. -/
def importMatches (symbolName : String) (d : ImportDeclM) : Bool :=
  (match d.defaultName with
   | some n => decide (n = symbolName)
   | none => false) ||
  (d.named.any fun n => n = symbolName) ||
  (match d.namespaceName with
   | some ns => jsStartsWith symbolName (ns ++ ".")
   | none => false)

/-- The mutable `importPath` accumulated over the file's import
declarations: every matching declaration overwrites it, so the last match
wins. -/
def scanImports (symbolName : String) (ds : List ImportDeclM) :
    Option String :=
  ds.foldl
    (fun acc d =>
      if importMatches symbolName d then some d.specifier else acc)
    none

/-- The evaluator's file context: the variable declarations in traversal
order (name, optional initializer), the import declarations, and the two
external oracles — module resolution
(`ts.resolveModuleName` / `require.resolve`) and `path.isAbsolute`. -/
structure EvalEnv where
  varDecls : List (String × Option TsNode)
  imports : List ImportDeclM
  resolveSpec : String → Option String
  pathIsAbsolute : String → Bool

/-- Embedding of `findVariableDeclarationInFile` (part_004 lines 234–255):
the first declaration of the name in traversal order (`found`
short-circuits the visit). -/
def findVariableDeclarationInFile (name : String) (env : EvalEnv) :
    Option (Option TsNode) :=
  (env.varDecls.find? fun p => p.1 = name).map Prod.snd

/-- Embedding of `resolveImportFullPath` (part_004 lines 179–224).  A falsy
`importPath` — no matching import, or the empty specifier — yields
`undefined`; otherwise the returned `importPath` field is the resolved path
for a `.`-relative specifier (possibly `undefined`: the `resolvedPath!`
assertion is unchecked) and the raw specifier for any other, paired with
the resolution result. -/
def resolveImportFullPath (env : EvalEnv) (symbolName : String) :
    Option (Option String × Option String) :=
  match scanImports symbolName env.imports with
  | none => none
  | some ip =>
      if ip = "" then none
      else
        some (if jsStartsWith ip "." then env.resolveSpec ip else some ip,
              env.resolveSpec ip)

/-- Embedding of `isNpmPackage` (part_004 lines 226–232): neither
`.`-relative, nor `/`-prefixed, nor `path.isAbsolute`. -/
def isNpmPackage (env : EvalEnv) (importPath : String) : Bool :=
  !jsStartsWith importPath "." && !jsStartsWith importPath "/" &&
    !env.pathIsAbsolute importPath

/-- The throws `resolveIdentifier` can raise before handing control to one
of its two evaluation continuations.  `typeErrorPath` is the JavaScript
TypeError of reading `.startsWith` off an `undefined` importPath field. -/
inductive EvalErr where
  | npmPackage (name spec : String)
  | unresolvedImport (spec : String)
  | unresolvable (name : String)
  | typeErrorPath
  deriving DecidableEq, Repr

/-- Where `resolveIdentifier` hands control onward: evaluation of a local
initializer, or evaluation inside a resolved imported file. -/
inductive ResolveStep where
  | localEval (init : TsNode)
  | importEval (spec resolvedPath : String)

/-- Embedding of the dispatch prefix of `createEvaluator.resolveIdentifier`
(part_004 lines 412–466): a local declaration with an initializer wins
outright; otherwise the import scan runs, an npm-package specifier is
rejected with the error naming the identifier and the package, a falsy
resolved path is rejected, and only then does cross-file evaluation
proceed; with no import match the identifier is unresolvable. -/
def resolveIdentifier (env : EvalEnv) (name : String) :
    Except EvalErr ResolveStep :=
  match findVariableDeclarationInFile name env with
  | some (some init) => .ok (.localEval init)
  | _ =>
      match resolveImportFullPath env name with
      | some res =>
          match res.1 with
          | none => .error .typeErrorPath
          | some ip =>
              if isNpmPackage env ip then
                .error (.npmPackage name ip)
              else
                match res.2 with
                | some rp =>
                    if rp = "" then .error (.unresolvedImport ip)
                    else .ok (.importEval ip rp)
                | none => .error (.unresolvedImport ip)
      | none => .error (.unresolvable name)

/-- The outcome of evaluating a macro argument of the modelled fragment:
an immediate value, or the continuation `resolveIdentifier` dispatched
to. -/
inductive EvalOutcome where
  | value (v : Value)
  | proceed (s : ResolveStep)

/-- A macro-argument expression of the modelled fragment
(`evaluateArgumentValue`, part_004 lines 264–410): literals are
self-evaluating and an identifier argument defers to
`resolveIdentifier`. -/
inductive ArgExpr where
  | str (s : String)
  | num (n : Int)
  | ident (name : String)
  deriving Repr

/-- Embedding of `evaluateArgumentValue` on the modelled argument fragment:
a thrown resolution error propagates; an identifier never yields a value
without passing `resolveIdentifier`. -/
def evaluateArgumentValue (env : EvalEnv) :
    ArgExpr → Except EvalErr EvalOutcome
  | .str s => .ok (.value (.vstr s))
  | .num n => .ok (.value (.vnum n))
  | .ident name =>
      match resolveIdentifier env name with
      | .error e => .error e
      | .ok s => .ok (.proceed s)

/-- C7: a macro argument that is an identifier imported from a package
specifier — the name has no local initializer-bearing declaration, and
the import scan binds it to a non-empty specifier that is neither relative
nor absolute — always evaluates to the package-import resolution error
naming the identifier and the specifier; it is never evaluated to a
value. -/
theorem C7_package_rejection (env : EvalEnv) (name spec : String)
    (hloc : ∀ init, findVariableDeclarationInFile name env ≠ some (some init))
    (hscan : scanImports name env.imports = some spec)
    (hne : spec ≠ "")
    (hdot : jsStartsWith spec "." = false)
    (hslash : jsStartsWith spec "/" = false)
    (habs : env.pathIsAbsolute spec = false) :
    evaluateArgumentValue env (.ident name)
      = .error (.npmPackage name spec) := by
  have hres : resolveImportFullPath env name
      = some (some spec, env.resolveSpec spec) := by
    unfold resolveImportFullPath
    simp [hscan, hne, hdot]
  have hnpm : isNpmPackage env spec = true := by
    simp [isNpmPackage, hdot, hslash, habs]
  have hstep : resolveIdentifier env name
      = .error (.npmPackage name spec) := by
    unfold resolveIdentifier
    cases hf : findVariableDeclarationInFile name env with
    | none =>
        simp only [hf, hres]
        simp [hnpm]
    | some o =>
        cases o with
        | none =>
            simp only [hf, hres]
            simp [hnpm]
        | some init => exact absurd hf (hloc init)
  rw [show evaluateArgumentValue env (.ident name)
      = (match resolveIdentifier env name with
         | .error e => Except.error e
         | .ok s => Except.ok (.proceed s)) from rfl, hstep]

/-- Witness for C7: `merge` named-imported from `"lodash"` in a file with
no local declarations. -/
theorem C7_package_rejection_witness :
    (∀ init, findVariableDeclarationInFile "merge"
        ⟨[], [⟨none, ["merge"], none, "lodash"⟩],
          fun _ => none, fun _ => false⟩ ≠ some (some init)) ∧
    evaluateArgumentValue
        ⟨[], [⟨none, ["merge"], none, "lodash"⟩],
          fun _ => none, fun _ => false⟩ (.ident "merge")
      = .error (.npmPackage "merge" "lodash") := by
  refine ⟨?_, ?_⟩
  · intro init h
    simp [findVariableDeclarationInFile] at h
  · exact C7_package_rejection
      ⟨[], [⟨none, ["merge"], none, "lodash"⟩],
        fun _ => none, fun _ => false⟩
      "merge" "lodash"
      (fun init h => by simp [findVariableDeclarationInFile] at h)
      rfl (by decide) (by decide) (by decide) rfl

end Pod
